import Mathlib

/-!
# Verification of the batched RNNT decoding accumulators

Shallow embedding of `nemo/collections/asr/parts/utils/rnnt_utils.py`
(classes `BatchedHyps`, `BatchedAlignments` and the conversion function
`batched_hyps_to_hypotheses`), together with proofs about the
specification claims.

Modelling conventions:
 * A 1-D torch tensor of per-item bookkeeping values is a function
   `Nat → α` (index = batch item).  A 2-D tensor is a function
   `Nat × Nat → α` (indices = batch item, column), a 3-D tensor a
   function `Nat × Nat × Nat → α`.  Shape information (batch size,
   current column capacity, logits width) is kept in explicit fields.
 * Floating point values (scores, logits, confidence inputs) are
   modelled as rationals `ℚ`; the only arithmetic performed on them by
   the source is addition, which is exact.
 * Integer tensors (`torch.long`) hold `Int`.
 * The in-place methods (`add_results_`, `_allocate_more`) become pure
   state transformers.
 * The flat scatter writes `tensor.view(-1)[indices] = values` are
   modelled faithfully: a flat index `k` into a row-major `(B, L)`
   buffer addresses row `k / L`, column `k % L`.  (PyTorch raises an
   `IndexError` when a flat index reaches `B*L`; the in-bounds theorem
   for claim C10 shows that under valid usage all indices written by
   `BatchedHyps.add_results_` stay strictly below `B*L` and inside the
   intended row, so the total model agrees with the source there.)
-/

/-- Pointwise update of a function, used to model a single in-place
tensor element assignment. -/
def updFn {κ α : Type} [DecidableEq κ] (f : κ → α) (k : κ) (v : α) : κ → α :=
  fun x => if x = k then v else f x

/-- Left-to-right sequence of element assignments, modelling a batched
scatter write `tensor[keys] = values` (last write wins on duplicate
keys, matching `index_put_` without accumulation). -/
def scatter {κ α : Type} [DecidableEq κ] (f : κ → α) (ups : List (κ × α)) : κ → α :=
  ups.foldl (fun acc kv => updFn acc kv.1 kv.2) f

theorem scatter_nil {κ α : Type} [DecidableEq κ] (f : κ → α) : scatter f [] = f := rfl

theorem scatter_cons {κ α : Type} [DecidableEq κ] (f : κ → α) (kv : κ × α)
    (ups : List (κ × α)) : scatter f (kv :: ups) = scatter (updFn f kv.1 kv.2) ups := rfl

theorem scatter_eq_of_not_mem {κ α : Type} [DecidableEq κ] (f : κ → α)
    (ups : List (κ × α)) (k : κ) (h : k ∉ ups.map Prod.fst) : scatter f ups k = f k := by
  induction ups generalizing f with
  | nil => rfl
  | cons kv rest ih =>
    simp only [List.map_cons, List.mem_cons, not_or] at h
    rw [scatter_cons, ih _ h.2, updFn, if_neg h.1]

theorem scatter_eq_of_mem {κ α : Type} [DecidableEq κ] (f : κ → α)
    (ups : List (κ × α)) (k : κ) (v : α)
    (hnd : (ups.map Prod.fst).Nodup) (hmem : (k, v) ∈ ups) : scatter f ups k = v := by
  induction ups generalizing f with
  | nil => simp at hmem
  | cons kv rest ih =>
    simp only [List.map_cons, List.nodup_cons] at hnd
    rcases List.mem_cons.mp hmem with h | h
    · rw [scatter_cons, scatter_eq_of_not_mem]
      · rw [← h, updFn, if_pos rfl]
      · rw [← h] at hnd; exact hnd.1
    · exact (scatter_cons f kv rest).symm ▸ ih _ hnd.2 h

/-- Maximum of `f` over indices `0, ..., n-1`, modelling
`tensor.max().item()` for a 1-D tensor of `n` non-negative entries. -/
def maxOver (f : Nat → Nat) (n : Nat) : Nat :=
  (List.range n).foldl (fun a b => max a (f b)) 0

theorem le_maxOver_of_lt (f : Nat → Nat) {n b : Nat} (h : b < n) : f b ≤ maxOver f n := by
  induction n with
  | zero => omega
  | succ m ih =>
    rw [maxOver, List.range_succ, List.foldl_append, List.foldl_cons, List.foldl_nil]
    rcases Nat.lt_succ_iff_lt_or_eq.mp h with h' | h'
    · exact le_trans (ih h') (le_max_left _ _)
    · subst h'; exact le_max_right _ _

theorem maxOver_lt (f : Nat → Nat) {n L : Nat} (hL : 0 < L)
    (h : ∀ b, b < n → f b < L) : maxOver f n < L := by
  induction n with
  | zero => exact hL
  | succ m ih =>
    rw [maxOver, List.range_succ, List.foldl_append, List.foldl_cons, List.foldl_nil]
    exact max_lt (ih fun b hb => h b (Nat.lt_succ_of_lt hb)) (h m (Nat.lt_succ_self m))

/-! ## `BatchedHyps`: batched hypotheses accumulator -/

/-- State of `BatchedHyps` (rnnt_utils.py, lines 225-281).
Field names follow the Python attributes; `max_length` is
`self._max_length`. -/
structure BatchedHyps where
  batch_size : Nat
  max_length : Nat
  lengths : Nat → Nat
  transcript : Nat × Nat → Int
  timesteps : Nat × Nat → Int
  scores : Nat → ℚ
  last_timestep_lasts : Nat → Int
  last_timestep : Nat → Int

/-- The field assignments performed by `BatchedHyps.__init__` after its
argument checks: all buffers zero-initialized, `last_timestep` filled
with the sentinel `-1`. -/
def BatchedHyps.new (batch_size init_length : Nat) : BatchedHyps :=
  { batch_size := batch_size
    max_length := init_length
    lengths := fun _ => 0
    transcript := fun _ => 0
    timesteps := fun _ => 0
    scores := fun _ => 0
    last_timestep_lasts := fun _ => 0
    last_timestep := fun _ => -1 }

/-- `BatchedHyps.__init__` (lines 228-246): validates `init_length` and
`batch_size` (in that order) before allocating. -/
def BatchedHyps.init (batch_size init_length : Int) : Except String BatchedHyps :=
  if init_length ≤ 0 then .error "ValueError: init_length must be > 0"
  else if batch_size ≤ 0 then .error "ValueError: batch_size must be > 0"
  else .ok (BatchedHyps.new batch_size.toNat init_length.toNat)

/-- `BatchedHyps._allocate_more` (lines 248-255): concatenates a
zero tensor of the same shape along the last axis of the 2-D buffers
`transcript` and `timesteps` (doubling the column count) and doubles
`_max_length`. -/
def BatchedHyps.allocate_more (h : BatchedHyps) : BatchedHyps :=
  { h with
    transcript := fun bj => if bj.2 < h.max_length then h.transcript bj else 0
    timesteps := fun bj => if bj.2 < h.max_length then h.timesteps bj else 0
    max_length := 2 * h.max_length }

/-- Lines 271-272 of `add_results_`: grow the buffers when the maximum
of `lengths` over the whole batch (not only the active items) has
reached the capacity. -/
def BatchedHyps.grown (h : BatchedHyps) : BatchedHyps :=
  if maxOver h.lengths h.batch_size ≥ h.max_length then h.allocate_more else h

/-- `BatchedHyps.add_results_` (lines 257-281).  All reads happen from
the pre-call state (after the optional growth), matching the vectorized
torch code; the flat scatter writes through `view(-1)` address row
`k / max_length`, column `k % max_length` for flat index `k`. -/
def BatchedHyps.add_results (h : BatchedHyps) (active_indices : List Nat)
    (labels time_indices : List Int) (scores : List ℚ) : BatchedHyps :=
  if active_indices.length = 0 then h
  else
    let h1 := h.grown
    let L := h1.max_length
    let indices_to_use := active_indices.map fun b => b * L + h1.lengths b
    { h1 with
      scores := scatter h1.scores
        ((active_indices.zip scores).map fun bs => (bs.1, h1.scores bs.1 + bs.2))
      transcript := scatter h1.transcript
        ((indices_to_use.zip labels).map fun kv => ((kv.1 / L, kv.1 % L), kv.2))
      timesteps := scatter h1.timesteps
        ((indices_to_use.zip time_indices).map fun kv => ((kv.1 / L, kv.1 % L), kv.2))
      last_timestep_lasts := scatter h1.last_timestep_lasts
        ((active_indices.zip time_indices).map fun bt =>
          (bt.1, if h1.last_timestep bt.1 = bt.2 then h1.last_timestep_lasts bt.1 + 1 else 1))
      last_timestep := scatter h1.last_timestep (active_indices.zip time_indices)
      lengths := scatter h1.lengths (active_indices.map fun b => (b, h1.lengths b + 1)) }

/-- The stored label sequence of item `b`, trimmed to its valid length:
`transcript[b, 0:lengths[b]]`. -/
def BatchedHyps.transcriptRow (h : BatchedHyps) (b : Nat) : List Int :=
  (List.range (h.lengths b)).map fun j => h.transcript (b, j)

/-- The stored time-index sequence of item `b`, trimmed to its valid
length: `timesteps[b, 0:lengths[b]]`. -/
def BatchedHyps.timestepRow (h : BatchedHyps) (b : Nat) : List Int :=
  (List.range (h.lengths b)).map fun j => h.timesteps (b, j)

example :
    ((BatchedHyps.new 2 1).add_results [0] [5] [1] [(1 : ℚ)/2]).transcriptRow 0 = [5] := by
  decide

example :
    (((BatchedHyps.new 2 1).add_results [0] [5] [1] [(1 : ℚ)/2]).add_results
      [0, 1] [2, 4] [1, 2] [1, 1]).transcriptRow 0 = [5, 2] := by
  decide

/-! ## `BatchedAlignments`: batched alignments accumulator -/

/-- Truncation of a rational towards zero, modelling the value-level
effect of storing a floating point number into a `torch.long` buffer
(C-style float-to-integer cast). -/
def truncToLong (q : ℚ) : Int := Int.tdiv q.num q.den

/-- State of `BatchedAlignments` (rnnt_utils.py, lines 284-350).
`logits` is kept as a row-valued map `(batch, step) ↦ vector`;
`logits_len` records `logits.shape[1]` (the number of step slots the
logits buffer actually has) and `logits_dim` records
`logits.shape[-1]`.  Both are tracked separately from `max_length`
because `_allocate_more` concatenates `logits` along `dim=-1`, which
changes the feature axis, not the step axis. -/
structure BatchedAlignments where
  batch_size : Nat
  with_frame_confidence : Bool
  max_length : Nat
  logits_len : Nat
  logits_dim : Nat
  logits : Nat × Nat → Nat → ℚ
  labels : Nat × Nat → Int
  lengths : Nat → Nat
  frame_confidence : Option (Nat × Nat → Int)

/-- The field assignments performed by `BatchedAlignments.__init__`
after its argument checks: zero buffers; the `frame_confidence` buffer
exists exactly when `with_frame_confidence` is set (source lines
308-311). -/
def BatchedAlignments.new (batch_size logits_dim init_length : Nat)
    (with_frame_confidence : Bool) : BatchedAlignments :=
  { batch_size := batch_size
    with_frame_confidence := with_frame_confidence
    max_length := init_length
    logits_len := init_length
    logits_dim := logits_dim
    logits := fun _ => fun _ => 0
    labels := fun _ => 0
    lengths := fun _ => 0
    frame_confidence := if with_frame_confidence then some (fun _ => 0) else none }

/-- `BatchedAlignments.__init__` (lines 290-311): validates
`init_length` and `batch_size` (in that order).  `logits_dim` has no
explicit check; a negative value only fails later inside
`torch.zeros`, which rejects negative dimension sizes with a
`RuntimeError` (modelled by the third branch), while `logits_dim = 0`
constructs successfully with an empty logits buffer. -/
def BatchedAlignments.init (batch_size logits_dim init_length : Int)
    (with_frame_confidence : Bool) : Except String BatchedAlignments :=
  if init_length ≤ 0 then .error "ValueError: init_length must be > 0"
  else if batch_size ≤ 0 then .error "ValueError: batch_size must be > 0"
  else if logits_dim < 0 then .error "RuntimeError: Trying to create tensor with negative dimension"
  else .ok (BatchedAlignments.new batch_size.toNat logits_dim.toNat init_length.toNat
    with_frame_confidence)

/-- `BatchedAlignments._allocate_more` (lines 313-322), modelled
exactly as written: every tensor is concatenated with a zero tensor of
its own shape along `dim=-1`.  For the 2-D `labels` and
`frame_confidence` buffers this doubles the column (step) axis, but
for the 3-D `logits` buffer `dim=-1` is the feature axis: `logits_dim`
doubles while `logits_len` (the step axis) stays unchanged, even
though `_max_length` is doubled. -/
def BatchedAlignments.allocate_more (a : BatchedAlignments) : BatchedAlignments :=
  { a with
    logits := fun bs => fun d => if d < a.logits_dim then a.logits bs d else 0
    logits_dim := 2 * a.logits_dim
    labels := fun bj => if bj.2 < a.max_length then a.labels bj else 0
    frame_confidence :=
      if a.with_frame_confidence then
        a.frame_confidence.map fun fc => fun bj => if bj.2 < a.max_length then fc bj else 0
      else a.frame_confidence
    max_length := 2 * a.max_length }

/-- Lines 342-343 of `BatchedAlignments.add_results_`: grow when the
maximum of `lengths` over the whole batch has reached the capacity. -/
def BatchedAlignments.grown (a : BatchedAlignments) : BatchedAlignments :=
  if maxOver a.lengths a.batch_size ≥ a.max_length then a.allocate_more else a

/-- `BatchedAlignments.add_results_` (lines 324-350).  The flat scatter
writes go through `view(-1, logits_dim)` for `logits` (flat row `k`
addresses step slot `(k / logits_len, k % logits_len)`) and through
`view(-1)` for `labels` / `frame_confidence` (flat index `k` addresses
`(k / max_length, k % max_length)`, since those buffers keep
`max_length` columns).  Confidence values pass through the long cast
because the `frame_confidence` buffer is allocated with
`dtype=torch.long` (line 309). -/
def BatchedAlignments.add_results (a : BatchedAlignments) (active_indices : List Nat)
    (logits : List (Nat → ℚ)) (labels : List Int) (confidence : Option (List ℚ)) :
    BatchedAlignments :=
  if active_indices.length = 0 then a
  else
    let a1 := a.grown
    let indices_to_use := active_indices.map fun b => b * a1.max_length + a1.lengths b
    { a1 with
      logits := scatter a1.logits
        ((indices_to_use.zip logits).map fun kv =>
          ((kv.1 / a1.logits_len, kv.1 % a1.logits_len), kv.2))
      labels := scatter a1.labels
        ((indices_to_use.zip labels).map fun kv =>
          ((kv.1 / a1.max_length, kv.1 % a1.max_length), kv.2))
      frame_confidence :=
        match confidence with
        | some conf =>
          if a1.with_frame_confidence then
            a1.frame_confidence.map fun fc => scatter fc
              ((indices_to_use.zip conf).map fun kv =>
                ((kv.1 / a1.max_length, kv.1 % a1.max_length), truncToLong kv.2))
          else a1.frame_confidence
        | none => a1.frame_confidence
      lengths := scatter a1.lengths (active_indices.map fun b => (b, a1.lengths b + 1)) }

/-! ## Result records and `batched_hyps_to_hypotheses` -/

/-- The fields of the `Hypothesis` dataclass that
`batched_hyps_to_hypotheses` fills in (the remaining optional fields
are left at their defaults by the source; `dec_state` is explicitly
set to `None`).  `alignments` entries pair the step label with the
full logits vector of that step; `frame_confidence` is wrapped in a
single-item outer list, and its entries are integers because the
accumulator buffer has `dtype=torch.long`. -/
structure Hypothesis where
  score : ℚ
  y_sequence : List Int
  timestep : List Int
  alignments : Option (List (Int × List ℚ))
  frame_confidence : Option (List (List Int))

/-- Default record used only as the fallback value of `List.getD`. -/
def defaultHypothesis : Hypothesis :=
  { score := 0, y_sequence := [], timestep := [], alignments := none, frame_confidence := none }

/-- `batched_hyps_to_hypotheses` (lines 353-394): one record per batch
index `i` in `range(batch_size)`, with `y_sequence` and `timestep`
trimmed to `lengths[i]`; the alignment trace is built when the
`alignments` argument is given, and `frame_confidence` additionally
requires the session to track confidence. -/
def batched_hyps_to_hypotheses (batched_hyps : BatchedHyps)
    (alignments : Option BatchedAlignments) : List Hypothesis :=
  (List.range batched_hyps.batch_size).map fun i =>
    { score := batched_hyps.scores i
      y_sequence := batched_hyps.transcriptRow i
      timestep := batched_hyps.timestepRow i
      alignments := alignments.map fun al =>
        (List.range (al.lengths i)).map fun time_i =>
          (al.labels (i, time_i), (List.range al.logits_dim).map fun d => al.logits (i, time_i) d)
      frame_confidence := alignments.bind fun al =>
        al.frame_confidence.map fun fc => [(List.range (al.lengths i)).map fun j => fc (i, j)] }

/-! ## Concrete states used by several claims -/

/-- State after the first append of the spec's "single append"
scenario: batch size 2, initial capacity 1, then
`add_results_([0], labels=[5], time_indices=[1], scores=[0.5])`. -/
def hypsA : BatchedHyps :=
  (BatchedHyps.new 2 1).add_results [0] [5] [1] [(1 : ℚ)/2]

/-- State after the second append of the spec's "sequential appends"
scenario: continuing from `hypsA` with
`add_results_([0, 1], labels=[2, 4], time_indices=[1, 2], scores=[1.0, 1.0])`. -/
def hypsB : BatchedHyps :=
  hypsA.add_results [0, 1] [2, 4] [1, 2] [1, 1]

example : hypsB.transcriptRow 0 = [5, 2] ∧ hypsB.transcriptRow 1 = [4] := by decide
example : hypsB.scores 0 = 3/2 ∧ hypsB.scores 1 = 1 := by
  norm_num [hypsB, hypsA, BatchedHyps.add_results, BatchedHyps.new, BatchedHyps.grown,
    BatchedHyps.allocate_more, maxOver, scatter, updFn, List.range_succ]

/-! ## Well-formedness, call validity, and basic lemmas -/

/-- Well-formedness of a `BatchedHyps` state: positive sizes and every
length within the current capacity. -/
def BatchedHyps.Wf (h : BatchedHyps) : Prop :=
  0 < h.batch_size ∧ 0 < h.max_length ∧ ∀ b, b < h.batch_size → h.lengths b ≤ h.max_length

/-- Arguments of one `add_results_` call on `BatchedHyps`. -/
structure HypsCall where
  active_indices : List Nat
  labels : List Int
  time_indices : List Int
  scores : List ℚ

/-- The caller contract for `add_results_`: distinct, in-range active
indices and argument sequences aligned with them. -/
def HypsCall.Valid (batch_size : Nat) (c : HypsCall) : Prop :=
  c.active_indices.Nodup ∧ (∀ b ∈ c.active_indices, b < batch_size) ∧
    c.labels.length = c.active_indices.length ∧
    c.time_indices.length = c.active_indices.length ∧
    c.scores.length = c.active_indices.length

/-- Apply a sequence of `add_results_` calls, oldest first. -/
def BatchedHyps.run (h : BatchedHyps) (cs : List HypsCall) : BatchedHyps :=
  cs.foldl (fun s c => s.add_results c.active_indices c.labels c.time_indices c.scores) h

theorem BatchedHyps.run_nil (h : BatchedHyps) : h.run [] = h := rfl

theorem BatchedHyps.run_cons (h : BatchedHyps) (c : HypsCall) (cs : List HypsCall) :
    h.run (c :: cs) =
      (h.add_results c.active_indices c.labels c.time_indices c.scores).run cs := rfl

theorem BatchedHyps.grown_batch_size (h : BatchedHyps) : h.grown.batch_size = h.batch_size := by
  rw [BatchedHyps.grown]; split <;> rfl

theorem BatchedHyps.grown_lengths (h : BatchedHyps) : h.grown.lengths = h.lengths := by
  rw [BatchedHyps.grown]; split <;> rfl

theorem BatchedHyps.grown_scores (h : BatchedHyps) : h.grown.scores = h.scores := by
  rw [BatchedHyps.grown]; split <;> rfl

theorem BatchedHyps.grown_last_timestep (h : BatchedHyps) :
    h.grown.last_timestep = h.last_timestep := by
  rw [BatchedHyps.grown]; split <;> rfl

theorem BatchedHyps.grown_last_timestep_lasts (h : BatchedHyps) :
    h.grown.last_timestep_lasts = h.last_timestep_lasts := by
  rw [BatchedHyps.grown]; split <;> rfl

theorem BatchedHyps.le_grown_max_length (h : BatchedHyps) :
    h.max_length ≤ h.grown.max_length := by
  rw [BatchedHyps.grown]; split
  · show h.max_length ≤ 2 * h.max_length; omega
  · exact le_refl _

/-- After the growth check of `add_results_`, every in-range length is
strictly below the (possibly doubled) capacity: this is what makes the
subsequent flat scatter write land inside the right row. -/
theorem BatchedHyps.grown_lengths_lt (h : BatchedHyps) (hwf : h.Wf) :
    ∀ b, b < h.batch_size → h.lengths b < h.grown.max_length := by
  intro b hb
  rw [BatchedHyps.grown]; split
  · have h1 := hwf.2.1
    have h2 := hwf.2.2 b hb
    show h.lengths b < 2 * h.max_length
    omega
  · have h1 := le_maxOver_of_lt h.lengths hb
    omega

theorem BatchedHyps.grown_transcript (h : BatchedHyps) (b j : Nat) (hj : j < h.max_length) :
    h.grown.transcript (b, j) = h.transcript (b, j) := by
  rw [BatchedHyps.grown]; split
  · show (if j < h.max_length then _ else _) = _
    rw [if_pos hj]
  · rfl

theorem BatchedHyps.grown_timesteps (h : BatchedHyps) (b j : Nat) (hj : j < h.max_length) :
    h.grown.timesteps (b, j) = h.timesteps (b, j) := by
  rw [BatchedHyps.grown]; split
  · show (if j < h.max_length then _ else _) = _
    rw [if_pos hj]
  · rfl

/-! ## Generic lemmas about keyed scatter updates -/

theorem scatter_map_get {κ α : Type} [DecidableEq κ] (f : κ → α) (active : List Nat)
    (key : Nat → κ) (e : Nat → α) (hnd : (active.map key).Nodup)
    (i : Nat) (hi : i < active.length) :
    scatter f (active.map fun b => (key b, e b)) (key (active.getD i 0)) =
      e (active.getD i 0) := by
  apply scatter_eq_of_mem
  · have : (active.map fun b => (key b, e b)).map Prod.fst = active.map key := by
      rw [List.map_map]; rfl
    rw [this]; exact hnd
  · rw [List.getD_eq_getElem active 0 hi]
    exact List.mem_map_of_mem _ (List.getElem_mem hi)

theorem scatter_map_eq_self {κ α : Type} [DecidableEq κ] (f : κ → α) (active : List Nat)
    (key : Nat → κ) (e : Nat → α) (x : κ) (hx : ∀ b ∈ active, key b ≠ x) :
    scatter f (active.map fun b => (key b, e b)) x = f x := by
  apply scatter_eq_of_not_mem
  intro hmem
  rw [List.map_map] at hmem
  rcases List.mem_map.mp hmem with ⟨b, hb, hkey⟩
  exact hx b hb hkey

theorem scatter_keyed_get {κ α β : Type} [DecidableEq κ] (f : κ → α) (active : List Nat)
    (vals : List β) (key : Nat → κ) (e : Nat × β → α)
    (hnd : (active.map key).Nodup) (hlen : vals.length = active.length)
    (i : Nat) (hi : i < active.length) (d : β) :
    scatter f ((active.zip vals).map fun p => (key p.1, e p)) (key (active.getD i 0)) =
      e (active.getD i 0, vals.getD i d) := by
  apply scatter_eq_of_mem
  · have h1 : ((active.zip vals).map fun p => (key p.1, e p)).map Prod.fst =
        ((active.zip vals).map Prod.fst).map key := by
      rw [List.map_map, List.map_map]; rfl
    rw [h1, List.map_fst_zip active vals (le_of_eq hlen.symm)]
    exact hnd
  · have hi' : i < vals.length := hlen ▸ hi
    have hz : i < (active.zip vals).length := by
      rw [List.length_zip]; omega
    have hget : (active.zip vals)[i] = (active[i], vals[i]) := List.getElem_zip
    rw [List.getD_eq_getElem active 0 hi, List.getD_eq_getElem vals d hi']
    have := List.mem_map_of_mem (fun p => (key p.1, e p)) (List.getElem_mem hz)
    rw [hget] at this
    exact this

theorem scatter_keyed_eq_self {κ α β : Type} [DecidableEq κ] (f : κ → α) (active : List Nat)
    (vals : List β) (key : Nat → κ) (e : Nat × β → α) (x : κ)
    (hx : ∀ b ∈ active, key b ≠ x) :
    scatter f ((active.zip vals).map fun p => (key p.1, e p)) x = f x := by
  apply scatter_eq_of_not_mem
  intro hmem
  rw [List.map_map] at hmem
  rcases List.mem_map.mp hmem with ⟨p, hp, hkey⟩
  exact hx p.1 (List.of_mem_zip hp).1 hkey

/-! ## Unfolding `add_results_` field by field -/

theorem BatchedHyps.add_results_batch_size (h : BatchedHyps) (active : List Nat)
    (labels time_indices : List Int) (scores : List ℚ) :
    (h.add_results active labels time_indices scores).batch_size = h.batch_size := by
  rw [BatchedHyps.add_results]
  split
  · rfl
  · exact h.grown_batch_size

theorem BatchedHyps.add_results_max_length (h : BatchedHyps) (active : List Nat)
    (labels time_indices : List Int) (scores : List ℚ) (hne : active ≠ []) :
    (h.add_results active labels time_indices scores).max_length = h.grown.max_length := by
  rw [BatchedHyps.add_results, if_neg (by simpa using hne)]

theorem BatchedHyps.add_results_lengths (h : BatchedHyps) (active : List Nat)
    (labels time_indices : List Int) (scores : List ℚ) (hne : active ≠ []) :
    (h.add_results active labels time_indices scores).lengths =
      scatter h.grown.lengths (active.map fun b => (b, h.grown.lengths b + 1)) := by
  rw [BatchedHyps.add_results, if_neg (by simpa using hne)]

theorem BatchedHyps.add_results_scores (h : BatchedHyps) (active : List Nat)
    (labels time_indices : List Int) (scores : List ℚ) (hne : active ≠ []) :
    (h.add_results active labels time_indices scores).scores =
      scatter h.grown.scores
        ((active.zip scores).map fun bs => (bs.1, h.grown.scores bs.1 + bs.2)) := by
  rw [BatchedHyps.add_results, if_neg (by simpa using hne)]

theorem BatchedHyps.add_results_last_timestep (h : BatchedHyps) (active : List Nat)
    (labels time_indices : List Int) (scores : List ℚ) (hne : active ≠ []) :
    (h.add_results active labels time_indices scores).last_timestep =
      scatter h.grown.last_timestep (active.zip time_indices) := by
  rw [BatchedHyps.add_results, if_neg (by simpa using hne)]

theorem BatchedHyps.add_results_last_timestep_lasts (h : BatchedHyps) (active : List Nat)
    (labels time_indices : List Int) (scores : List ℚ) (hne : active ≠ []) :
    (h.add_results active labels time_indices scores).last_timestep_lasts =
      scatter h.grown.last_timestep_lasts
        ((active.zip time_indices).map fun bt =>
          (bt.1, if h.grown.last_timestep bt.1 = bt.2 then
            h.grown.last_timestep_lasts bt.1 + 1 else 1)) := by
  rw [BatchedHyps.add_results, if_neg (by simpa using hne)]

theorem BatchedHyps.add_results_transcript (h : BatchedHyps) (active : List Nat)
    (labels time_indices : List Int) (scores : List ℚ) (hne : active ≠ []) :
    (h.add_results active labels time_indices scores).transcript =
      scatter h.grown.transcript
        (((active.map fun b => b * h.grown.max_length + h.grown.lengths b).zip labels).map
          fun kv => ((kv.1 / h.grown.max_length, kv.1 % h.grown.max_length), kv.2)) := by
  rw [BatchedHyps.add_results, if_neg (by simpa using hne)]

theorem BatchedHyps.add_results_timesteps (h : BatchedHyps) (active : List Nat)
    (labels time_indices : List Int) (scores : List ℚ) (hne : active ≠ []) :
    (h.add_results active labels time_indices scores).timesteps =
      scatter h.grown.timesteps
        (((active.map fun b => b * h.grown.max_length + h.grown.lengths b).zip time_indices).map
          fun kv => ((kv.1 / h.grown.max_length, kv.1 % h.grown.max_length), kv.2)) := by
  rw [BatchedHyps.add_results, if_neg (by simpa using hne)]

/-- The flat indices `b * L + len b` written by `add_results_` decode
to `(row, column) = (b, len b)` as soon as every active length is
strictly below the capacity `L`. -/
theorem flat_ups_eq {α : Type} (active : List Nat) (vals : List α) (L : Nat) (len : Nat → Nat)
    (hlt : ∀ b ∈ active, len b < L) :
    ((active.map fun b => b * L + len b).zip vals).map
        (fun kv => ((kv.1 / L, kv.1 % L), kv.2)) =
      (active.zip vals).map fun p => ((p.1, len p.1), p.2) := by
  rw [List.zip_map_left, List.map_map]
  apply List.map_congr_left
  intro p hp
  have hb : p.1 ∈ active := (List.of_mem_zip hp).1
  have hlt' := hlt _ hb
  have hL : 0 < L := Nat.pos_of_ne_zero (by omega)
  have hdiv : (p.1 * L + len p.1) / L = p.1 := by
    rw [Nat.mul_comm p.1 L, Nat.mul_add_div hL, Nat.div_eq_of_lt hlt']
    omega
  have hmod : (p.1 * L + len p.1) % L = len p.1 := by
    rw [Nat.mul_comm p.1 L, Nat.mul_add_mod, Nat.mod_eq_of_lt hlt']
  simp only [Function.comp_apply, Prod.map_fst, Prod.map_snd, id_eq, hdiv, hmod]

/-! ## The effect of one `add_results_` call -/

theorem BatchedHyps.add_results_nil (h : BatchedHyps)
    (labels time_indices : List Int) (scores : List ℚ) :
    h.add_results [] labels time_indices scores = h := rfl

theorem getD_mem_of_lt (active : List Nat) {i : Nat} (hi : i < active.length) :
    active.getD i 0 ∈ active := by
  rw [List.getD_eq_getElem active 0 hi]
  exact List.getElem_mem hi

theorem BatchedHyps.add_lengths_get (h : BatchedHyps) {active : List Nat}
    {labels time_indices : List Int} {scores : List ℚ} (hnd : active.Nodup)
    {i : Nat} (hi : i < active.length) :
    (h.add_results active labels time_indices scores).lengths (active.getD i 0) =
      h.lengths (active.getD i 0) + 1 := by
  have hne : active ≠ [] := by intro e; subst e; simp at hi
  rw [h.add_results_lengths active labels time_indices scores hne, BatchedHyps.grown_lengths]
  exact scatter_map_get h.lengths active id (fun b => h.lengths b + 1)
    (by rw [List.map_id]; exact hnd) i hi

theorem BatchedHyps.add_lengths_not_mem (h : BatchedHyps) {active : List Nat}
    {labels time_indices : List Int} {scores : List ℚ} {b : Nat} (hb : b ∉ active) :
    (h.add_results active labels time_indices scores).lengths b = h.lengths b := by
  rcases eq_or_ne active [] with he | hne
  · subst he; rw [h.add_results_nil]
  · rw [h.add_results_lengths active labels time_indices scores hne, BatchedHyps.grown_lengths]
    exact scatter_map_eq_self h.lengths active id _ b (fun b' hb' heq => hb (heq ▸ hb'))

theorem BatchedHyps.add_scores_get (h : BatchedHyps) {active : List Nat}
    {labels time_indices : List Int} {scores : List ℚ} (hnd : active.Nodup)
    (hlen : scores.length = active.length) {i : Nat} (hi : i < active.length) :
    (h.add_results active labels time_indices scores).scores (active.getD i 0) =
      h.scores (active.getD i 0) + scores.getD i 0 := by
  have hne : active ≠ [] := by intro e; subst e; simp at hi
  rw [h.add_results_scores active labels time_indices scores hne, BatchedHyps.grown_scores]
  exact scatter_keyed_get h.scores active scores id (fun p => h.scores p.1 + p.2)
    (by rw [List.map_id]; exact hnd) hlen i hi 0

theorem BatchedHyps.add_scores_not_mem (h : BatchedHyps) {active : List Nat}
    {labels time_indices : List Int} {scores : List ℚ} {b : Nat} (hb : b ∉ active) :
    (h.add_results active labels time_indices scores).scores b = h.scores b := by
  rcases eq_or_ne active [] with he | hne
  · subst he; rw [h.add_results_nil]
  · rw [h.add_results_scores active labels time_indices scores hne, BatchedHyps.grown_scores]
    exact scatter_keyed_eq_self h.scores active scores id _ b
      (fun b' hb' heq => hb (heq ▸ hb'))

theorem BatchedHyps.add_last_timestep_get (h : BatchedHyps) {active : List Nat}
    {labels time_indices : List Int} {scores : List ℚ} (hnd : active.Nodup)
    (hlen : time_indices.length = active.length) {i : Nat} (hi : i < active.length) :
    (h.add_results active labels time_indices scores).last_timestep (active.getD i 0) =
      time_indices.getD i 0 := by
  have hne : active ≠ [] := by intro e; subst e; simp at hi
  rw [h.add_results_last_timestep active labels time_indices scores hne]
  apply scatter_eq_of_mem
  · rw [List.map_fst_zip active time_indices (le_of_eq hlen.symm)]
    exact hnd
  · have hi' : i < time_indices.length := hlen ▸ hi
    have hz : i < (active.zip time_indices).length := by rw [List.length_zip]; omega
    have hget : (active.zip time_indices)[i] = (active[i], time_indices[i]) := List.getElem_zip
    rw [List.getD_eq_getElem active 0 hi, List.getD_eq_getElem time_indices 0 hi']
    have hmem := List.getElem_mem hz
    rw [hget] at hmem
    exact hmem

theorem BatchedHyps.add_last_timestep_not_mem (h : BatchedHyps) {active : List Nat}
    {labels time_indices : List Int} {scores : List ℚ} {b : Nat} (hb : b ∉ active) :
    (h.add_results active labels time_indices scores).last_timestep b = h.last_timestep b := by
  rcases eq_or_ne active [] with he | hne
  · subst he; rw [h.add_results_nil]
  · rw [h.add_results_last_timestep active labels time_indices scores hne,
      BatchedHyps.grown_last_timestep]
    apply scatter_eq_of_not_mem
    intro hmem
    rcases List.mem_map.mp hmem with ⟨p, hp, hkey⟩
    exact hb (hkey ▸ (List.of_mem_zip hp).1)

theorem BatchedHyps.add_last_timestep_lasts_get (h : BatchedHyps) {active : List Nat}
    {labels time_indices : List Int} {scores : List ℚ} (hnd : active.Nodup)
    (hlen : time_indices.length = active.length) {i : Nat} (hi : i < active.length) :
    (h.add_results active labels time_indices scores).last_timestep_lasts (active.getD i 0) =
      if h.last_timestep (active.getD i 0) = time_indices.getD i 0 then
        h.last_timestep_lasts (active.getD i 0) + 1 else 1 := by
  have hne : active ≠ [] := by intro e; subst e; simp at hi
  rw [h.add_results_last_timestep_lasts active labels time_indices scores hne,
    BatchedHyps.grown_last_timestep, BatchedHyps.grown_last_timestep_lasts]
  exact scatter_keyed_get h.last_timestep_lasts active time_indices id
    (fun p => if h.last_timestep p.1 = p.2 then h.last_timestep_lasts p.1 + 1 else 1)
    (by rw [List.map_id]; exact hnd) hlen i hi 0

theorem BatchedHyps.add_last_timestep_lasts_not_mem (h : BatchedHyps) {active : List Nat}
    {labels time_indices : List Int} {scores : List ℚ} {b : Nat} (hb : b ∉ active) :
    (h.add_results active labels time_indices scores).last_timestep_lasts b =
      h.last_timestep_lasts b := by
  rcases eq_or_ne active [] with he | hne
  · subst he; rw [h.add_results_nil]
  · rw [h.add_results_last_timestep_lasts active labels time_indices scores hne,
      BatchedHyps.grown_last_timestep_lasts]
    exact scatter_keyed_eq_self h.last_timestep_lasts active time_indices id _ b
      (fun b' hb' heq => hb (heq ▸ hb'))

theorem BatchedHyps.add_transcript_get (h : BatchedHyps) (hwf : h.Wf) {active : List Nat}
    {labels time_indices : List Int} {scores : List ℚ} (hnd : active.Nodup)
    (hact : ∀ b ∈ active, b < h.batch_size)
    (hlen : labels.length = active.length) {i : Nat} (hi : i < active.length) :
    (h.add_results active labels time_indices scores).transcript
        (active.getD i 0, h.lengths (active.getD i 0)) = labels.getD i 0 := by
  have hne : active ≠ [] := by intro e; subst e; simp at hi
  rw [h.add_results_transcript active labels time_indices scores hne, BatchedHyps.grown_lengths,
    flat_ups_eq active labels h.grown.max_length h.lengths
      (fun b' hb' => h.grown_lengths_lt hwf b' (hact b' hb'))]
  exact scatter_keyed_get h.grown.transcript active labels (fun b => (b, h.lengths b))
    (fun p => p.2) (hnd.map fun a b hab => congrArg Prod.fst hab) hlen i hi 0

theorem BatchedHyps.add_transcript_lt (h : BatchedHyps) (hwf : h.Wf) {active : List Nat}
    {labels time_indices : List Int} {scores : List ℚ}
    (hact : ∀ b ∈ active, b < h.batch_size)
    {b j : Nat} (hb : b < h.batch_size) (hj : j < h.lengths b) :
    (h.add_results active labels time_indices scores).transcript (b, j) =
      h.transcript (b, j) := by
  rcases eq_or_ne active [] with he | hne
  · subst he; rw [h.add_results_nil]
  · rw [h.add_results_transcript active labels time_indices scores hne, BatchedHyps.grown_lengths,
      flat_ups_eq active labels h.grown.max_length h.lengths
        (fun b' hb' => h.grown_lengths_lt hwf b' (hact b' hb')),
      scatter_keyed_eq_self h.grown.transcript active labels (fun b' => (b', h.lengths b'))
        (fun p => p.2) (b, j) ?hx]
    · exact h.grown_transcript b j (lt_of_lt_of_le hj (hwf.2.2 b hb))
    case hx =>
      intro b' hb' heq
      have h1 : b' = b := congrArg Prod.fst heq
      have h2 : h.lengths b' = j := congrArg Prod.snd heq
      subst h1
      omega

theorem BatchedHyps.add_timesteps_get (h : BatchedHyps) (hwf : h.Wf) {active : List Nat}
    {labels time_indices : List Int} {scores : List ℚ} (hnd : active.Nodup)
    (hact : ∀ b ∈ active, b < h.batch_size)
    (hlen : time_indices.length = active.length) {i : Nat} (hi : i < active.length) :
    (h.add_results active labels time_indices scores).timesteps
        (active.getD i 0, h.lengths (active.getD i 0)) = time_indices.getD i 0 := by
  have hne : active ≠ [] := by intro e; subst e; simp at hi
  rw [h.add_results_timesteps active labels time_indices scores hne, BatchedHyps.grown_lengths,
    flat_ups_eq active time_indices h.grown.max_length h.lengths
      (fun b' hb' => h.grown_lengths_lt hwf b' (hact b' hb'))]
  exact scatter_keyed_get h.grown.timesteps active time_indices (fun b => (b, h.lengths b))
    (fun p => p.2) (hnd.map fun a b hab => congrArg Prod.fst hab) hlen i hi 0

theorem BatchedHyps.add_timesteps_lt (h : BatchedHyps) (hwf : h.Wf) {active : List Nat}
    {labels time_indices : List Int} {scores : List ℚ}
    (hact : ∀ b ∈ active, b < h.batch_size)
    {b j : Nat} (hb : b < h.batch_size) (hj : j < h.lengths b) :
    (h.add_results active labels time_indices scores).timesteps (b, j) =
      h.timesteps (b, j) := by
  rcases eq_or_ne active [] with he | hne
  · subst he; rw [h.add_results_nil]
  · rw [h.add_results_timesteps active labels time_indices scores hne, BatchedHyps.grown_lengths,
      flat_ups_eq active time_indices h.grown.max_length h.lengths
        (fun b' hb' => h.grown_lengths_lt hwf b' (hact b' hb')),
      scatter_keyed_eq_self h.grown.timesteps active time_indices (fun b' => (b', h.lengths b'))
        (fun p => p.2) (b, j) ?hx]
    · exact h.grown_timesteps b j (lt_of_lt_of_le hj (hwf.2.2 b hb))
    case hx =>
      intro b' hb' heq
      have h1 : b' = b := congrArg Prod.fst heq
      have h2 : h.lengths b' = j := congrArg Prod.snd heq
      subst h1
      omega

theorem BatchedHyps.add_results_wf (h : BatchedHyps) (hwf : h.Wf) {active : List Nat}
    {labels time_indices : List Int} {scores : List ℚ}
    (hnd : active.Nodup) (hact : ∀ b ∈ active, b < h.batch_size) :
    (h.add_results active labels time_indices scores).Wf := by
  rcases eq_or_ne active [] with he | hne
  · subst he; rw [h.add_results_nil]; exact hwf
  · refine ⟨?_, ?_, ?_⟩
    · rw [h.add_results_batch_size]; exact hwf.1
    · rw [h.add_results_max_length _ _ _ _ hne]
      exact lt_of_lt_of_le hwf.2.1 h.le_grown_max_length
    · intro b hb
      rw [h.add_results_batch_size] at hb
      rw [h.add_results_max_length _ _ _ _ hne]
      by_cases hmem : b ∈ active
      · rcases List.mem_iff_getElem.mp hmem with ⟨i, hi, hib⟩
        have hgd : active.getD i 0 = b := by
          rw [List.getD_eq_getElem active 0 hi]; exact hib
        rw [← hgd, h.add_lengths_get hnd hi, hgd]
        have := h.grown_lengths_lt hwf b hb
        omega
      · rw [h.add_lengths_not_mem hmem]
        exact le_trans (hwf.2.2 b hb) h.le_grown_max_length

/-! ## Row evolution under `add_results_` -/

theorem BatchedHyps.add_transcriptRow_get (h : BatchedHyps) (hwf : h.Wf) {active : List Nat}
    {labels time_indices : List Int} {scores : List ℚ} (hnd : active.Nodup)
    (hact : ∀ b ∈ active, b < h.batch_size)
    (hlen : labels.length = active.length) {i : Nat} (hi : i < active.length) :
    (h.add_results active labels time_indices scores).transcriptRow (active.getD i 0) =
      h.transcriptRow (active.getD i 0) ++ [labels.getD i 0] := by
  have hb : active.getD i 0 < h.batch_size := hact _ (getD_mem_of_lt active hi)
  rw [BatchedHyps.transcriptRow, BatchedHyps.transcriptRow, h.add_lengths_get hnd hi,
    List.range_succ, List.map_append, List.map_cons, List.map_nil]
  congr 1
  · exact List.map_congr_left fun j hj =>
      h.add_transcript_lt hwf hact hb (List.mem_range.mp hj)
  · rw [h.add_transcript_get hwf hnd hact hlen hi]

theorem BatchedHyps.add_timestepRow_get (h : BatchedHyps) (hwf : h.Wf) {active : List Nat}
    {labels time_indices : List Int} {scores : List ℚ} (hnd : active.Nodup)
    (hact : ∀ b ∈ active, b < h.batch_size)
    (hlen : time_indices.length = active.length) {i : Nat} (hi : i < active.length) :
    (h.add_results active labels time_indices scores).timestepRow (active.getD i 0) =
      h.timestepRow (active.getD i 0) ++ [time_indices.getD i 0] := by
  have hb : active.getD i 0 < h.batch_size := hact _ (getD_mem_of_lt active hi)
  rw [BatchedHyps.timestepRow, BatchedHyps.timestepRow, h.add_lengths_get hnd hi,
    List.range_succ, List.map_append, List.map_cons, List.map_nil]
  congr 1
  · exact List.map_congr_left fun j hj =>
      h.add_timesteps_lt hwf hact hb (List.mem_range.mp hj)
  · rw [h.add_timesteps_get hwf hnd hact hlen hi]

theorem BatchedHyps.add_transcriptRow_not_mem (h : BatchedHyps) (hwf : h.Wf) {active : List Nat}
    {labels time_indices : List Int} {scores : List ℚ}
    (hact : ∀ b ∈ active, b < h.batch_size) {b : Nat} (hb : b < h.batch_size)
    (hbm : b ∉ active) :
    (h.add_results active labels time_indices scores).transcriptRow b =
      h.transcriptRow b := by
  rw [BatchedHyps.transcriptRow, BatchedHyps.transcriptRow, h.add_lengths_not_mem hbm]
  exact List.map_congr_left fun j hj =>
    h.add_transcript_lt hwf hact hb (List.mem_range.mp hj)

theorem BatchedHyps.add_timestepRow_not_mem (h : BatchedHyps) (hwf : h.Wf) {active : List Nat}
    {labels time_indices : List Int} {scores : List ℚ}
    (hact : ∀ b ∈ active, b < h.batch_size) {b : Nat} (hb : b < h.batch_size)
    (hbm : b ∉ active) :
    (h.add_results active labels time_indices scores).timestepRow b =
      h.timestepRow b := by
  rw [BatchedHyps.timestepRow, BatchedHyps.timestepRow, h.add_lengths_not_mem hbm]
  exact List.map_congr_left fun j hj =>
    h.add_timesteps_lt hwf hact hb (List.mem_range.mp hj)

/-! ## Sequences of calls -/

theorem BatchedHyps.run_batch_size (h : BatchedHyps) (cs : List HypsCall) :
    (h.run cs).batch_size = h.batch_size := by
  induction cs generalizing h with
  | nil => rfl
  | cons c rest ih =>
    rw [BatchedHyps.run_cons, ih, BatchedHyps.add_results_batch_size]

theorem BatchedHyps.run_wf (h : BatchedHyps) (hwf : h.Wf) (cs : List HypsCall)
    (hcs : ∀ c ∈ cs, c.Valid h.batch_size) : (h.run cs).Wf := by
  induction cs generalizing h with
  | nil => exact hwf
  | cons c rest ih =>
    rw [BatchedHyps.run_cons]
    have hv := hcs c (List.mem_cons_self c rest)
    refine ih _ (h.add_results_wf hwf hv.1 hv.2.1) fun c' hc' => ?_
    rw [BatchedHyps.add_results_batch_size]
    exact hcs c' (List.mem_cons_of_mem c hc')

/-! ## Trailing-run length of an integer sequence -/

/-- Length of the initial block of entries of `l` equal to `x`. -/
def leadRun (x : Int) : List Int → Nat
  | [] => 0
  | y :: ys => if y = x then leadRun x ys + 1 else 0

/-- `headRun (x :: xs)` is the length of the initial constant block. -/
def headRun : List Int → Nat
  | [] => 0
  | x :: xs => leadRun x xs + 1

/-- Number of trailing entries of `l` equal to its last entry
(`0` for the empty list). -/
def trailRun (l : List Int) : Nat := headRun l.reverse

theorem trailRun_nil : trailRun [] = 0 := rfl

theorem trailRun_append (l : List Int) (t : Int) :
    trailRun (l ++ [t]) = if l.getLast? = some t then trailRun l + 1 else 1 := by
  rw [trailRun, List.reverse_append]
  show headRun (t :: l.reverse) = _
  rw [headRun]
  cases hl : l.reverse with
  | nil =>
    have hnil : l = [] := by
      have := congrArg List.reverse hl
      simpa using this
    subst hnil
    simp [leadRun, trailRun, headRun]
  | cons x xs =>
    have hgl : l.getLast? = some x := by
      rw [← List.head?_reverse, hl]
      rfl
    rw [leadRun]
    by_cases hx : x = t
    · subst hx
      rw [if_pos rfl, hgl, if_pos rfl, trailRun, hl, headRun]
    · rw [if_neg hx, hgl, if_neg (by simpa using fun h => hx h)]

theorem leadRun_le_length (x : Int) (l : List Int) : leadRun x l ≤ l.length := by
  induction l with
  | nil => exact le_refl _
  | cons y ys ih =>
    rw [leadRun]
    split
    · simpa using ih
    · simp

theorem leadRun_spec (x : Int) (l : List Int) {k : Nat} (hk : k < leadRun x l) :
    l.getD k 0 = x := by
  induction l generalizing k with
  | nil => simp [leadRun] at hk
  | cons y ys ih =>
    rw [leadRun] at hk
    split at hk
    · cases k with
      | zero => simpa using ‹y = x›
      | succ m =>
        show ys.getD m 0 = x
        exact ih (by omega)
    · omega

theorem trailRun_le_length (l : List Int) : trailRun l ≤ l.length := by
  rw [trailRun]
  cases hl : l.reverse with
  | nil => simp [headRun]
  | cons x xs =>
    rw [headRun]
    have h1 : leadRun x xs ≤ xs.length := leadRun_le_length x xs
    have h2 : l.length = xs.length + 1 := by
      have := congrArg List.length hl
      simpa [Nat.add_comm] using this
    omega

/-- Every entry within the trailing run equals the last entry. -/
theorem trailRun_spec (l : List Int) {j : Nat} (h1 : l.length - trailRun l ≤ j)
    (h2 : j < l.length) : some (l.getD j 0) = l.getLast? := by
  rcases List.eq_nil_or_concat l with hnil | ⟨l', t, rfl⟩
  · subst hnil; simp at h2
  · simp only [List.concat_eq_append] at h1 h2 ⊢
    rw [List.getLast?_concat]
    rw [List.length_append, List.length_cons, List.length_nil] at h2
    by_cases hj : j = l'.length
    · subst hj
      rw [List.getD_append_right l' [t] 0 l'.length (le_refl _)]
      simp
    · have hj' : j < l'.length := by omega
      rw [List.getD_append _ _ _ _ hj']
      -- j is within l', inside the trailing run of l' ++ [t]
      -- translate to the reversed list: reverse (l' ++ [t]) = t :: reverse l'
      have hrev : (l' ++ [t]).reverse = t :: l'.reverse := by
        rw [List.reverse_append]; rfl
      have hrun : trailRun (l' ++ [t]) = leadRun t l'.reverse + 1 := by
        rw [trailRun, hrev, headRun]
      rw [List.length_append, List.length_cons, List.length_nil, hrun] at h1
      -- position j of l' is position (l'.length - 1 - j) of l'.reverse
      have hk : l'.reverse.getD (l'.length - 1 - j) 0 = l'.getD j 0 := by
        rw [List.getD_eq_getElem?_getD, List.getD_eq_getElem?_getD,
          List.getElem?_reverse (by omega)]
        congr 2
        omega
      rw [← hk, leadRun_spec t l'.reverse (by omega)]

/-! ## The repeat-count invariant (claim C8) -/

/-- `last_timestep_lasts[b]` equals the length of the trailing
constant block of the stored time indices, and the last stored time
index is `last_timestep[b]`. -/
def RepeatInv (h : BatchedHyps) : Prop :=
  ∀ b, b < h.batch_size →
    h.last_timestep_lasts b = (trailRun (h.timestepRow b) : Int) ∧
    (0 < h.lengths b → (h.timestepRow b).getLast? = some (h.last_timestep b))

theorem timestepRow_new (batch_size init_length b : Nat) :
    (BatchedHyps.new batch_size init_length).timestepRow b = [] := rfl

theorem RepeatInv_new (batch_size init_length : Nat) :
    RepeatInv (BatchedHyps.new batch_size init_length) := by
  intro b hb
  exact ⟨rfl, fun h0 => absurd h0 (by simp [BatchedHyps.new])⟩

theorem RepeatInv_step (h : BatchedHyps) (hwf : h.Wf) (c : HypsCall)
    (hv : c.Valid h.batch_size) (hinv : RepeatInv h) :
    RepeatInv (h.add_results c.active_indices c.labels c.time_indices c.scores) := by
  intro b hb
  rw [BatchedHyps.add_results_batch_size] at hb
  by_cases hmem : b ∈ c.active_indices
  · rcases List.mem_iff_getElem.mp hmem with ⟨i, hi, hib⟩
    have hgd : c.active_indices.getD i 0 = b := by
      rw [List.getD_eq_getElem _ 0 hi]; exact hib
    rw [← hgd, h.add_lengths_get hv.1 hi, h.add_last_timestep_get hv.1 hv.2.2.2.1 hi,
      h.add_last_timestep_lasts_get hv.1 hv.2.2.2.1 hi,
      h.add_timestepRow_get hwf hv.1 hv.2.1 hv.2.2.2.1 hi,
      trailRun_append]
    set b' := c.active_indices.getD i 0
    set t := c.time_indices.getD i 0
    have hb' : b' < h.batch_size := hv.2.1 b' (getD_mem_of_lt _ hi)
    constructor
    · by_cases hlen : 0 < h.lengths b'
      · rw [(hinv b' hb').2 hlen]
        by_cases hlast : h.last_timestep b' = t
        · rw [if_pos hlast, if_pos (by rw [hlast]), (hinv b' hb').1]
          push_cast
          ring
        · rw [if_neg hlast, if_neg (fun hs => hlast (Option.some.inj hs))]
          rfl
      · have hrow : h.timestepRow b' = [] := by
          rw [BatchedHyps.timestepRow]
          have hz : h.lengths b' = 0 := by omega
          rw [hz]
          rfl
        rw [hrow]
        have hlasts0 : h.last_timestep_lasts b' = 0 := by
          have hh := (hinv b' hb').1
          rw [hrow] at hh
          simpa using hh
        have hnone : ¬(([] : List Int).getLast? = some t) := by simp
        rw [if_neg hnone, hlasts0]
        by_cases hlast : h.last_timestep b' = t
        · rw [if_pos hlast]
          rfl
        · rw [if_neg hlast]
          rfl
    · intro _
      rw [List.getLast?_concat]
  · have hb2 : b < h.batch_size := hb
    rw [h.add_lengths_not_mem hmem, h.add_last_timestep_not_mem hmem,
      h.add_last_timestep_lasts_not_mem hmem,
      h.add_timestepRow_not_mem hwf hv.2.1 hb2 hmem]
    exact hinv b hb2

theorem RepeatInv_run_of (h : BatchedHyps) (hwf : h.Wf) (hinv : RepeatInv h)
    (cs : List HypsCall) (hcs : ∀ c ∈ cs, c.Valid h.batch_size) :
    RepeatInv (h.run cs) := by
  induction cs generalizing h with
  | nil => exact hinv
  | cons c rest ih =>
    rw [BatchedHyps.run_cons]
    have hv := hcs c (List.mem_cons_self c rest)
    refine ih _ (h.add_results_wf hwf hv.1 hv.2.1)
      (RepeatInv_step h hwf c hv hinv) fun c' hc' => ?_
    rw [BatchedHyps.add_results_batch_size]
    exact hcs c' (List.mem_cons_of_mem c hc')

/-! ## The monotone time-index invariant (claim C9) -/

/-- The stored time indices of every item are non-decreasing and
bounded by that item's `last_timestep`. -/
def MonoInv (h : BatchedHyps) : Prop :=
  ∀ b, b < h.batch_size →
    List.Chain' (· ≤ ·) (h.timestepRow b) ∧
    ∀ j, j < h.lengths b → h.timesteps (b, j) ≤ h.last_timestep b

theorem MonoInv_new (batch_size init_length : Nat) :
    MonoInv (BatchedHyps.new batch_size init_length) := by
  intro b hb
  exact ⟨List.chain'_nil, fun j hj => absurd hj (by simp [BatchedHyps.new])⟩

/-- The per-call caller obligation that makes the monotone invariant
hold: every appended time index is at least the item's current
`last_timestep`. -/
def HypsCall.MonotoneAt (h : BatchedHyps) (c : HypsCall) : Prop :=
  ∀ i, i < c.active_indices.length →
    h.last_timestep (c.active_indices.getD i 0) ≤ c.time_indices.getD i 0

/-- The whole call sequence satisfies the per-call obligation at the
state where it is issued. -/
def MonotoneFeed : BatchedHyps → List HypsCall → Prop
  | _, [] => True
  | h, c :: cs =>
    c.MonotoneAt h ∧
      MonotoneFeed (h.add_results c.active_indices c.labels c.time_indices c.scores) cs

/-- The last stored time index of a non-empty row. -/
theorem timestepRow_getLast (h : BatchedHyps) (b : Nat) (hlen : 0 < h.lengths b) :
    (h.timestepRow b).getLast? = some (h.timesteps (b, h.lengths b - 1)) := by
  rcases Nat.exists_eq_add_of_lt hlen with ⟨m, hm⟩
  rw [BatchedHyps.timestepRow]
  have hl : h.lengths b = m + 1 := by omega
  rw [hl, List.range_succ, List.map_append, List.map_cons, List.map_nil,
    List.getLast?_concat]
  simp

theorem MonoInv_step (h : BatchedHyps) (hwf : h.Wf) (c : HypsCall)
    (hv : c.Valid h.batch_size) (hmono : c.MonotoneAt h) (hinv : MonoInv h) :
    MonoInv (h.add_results c.active_indices c.labels c.time_indices c.scores) := by
  intro b hb
  rw [BatchedHyps.add_results_batch_size] at hb
  by_cases hmem : b ∈ c.active_indices
  · rcases List.mem_iff_getElem.mp hmem with ⟨i, hi, hib⟩
    have hgd : c.active_indices.getD i 0 = b := by
      rw [List.getD_eq_getElem _ 0 hi]; exact hib
    rw [← hgd]
    have hb' : c.active_indices.getD i 0 < h.batch_size :=
      hv.2.1 _ (getD_mem_of_lt _ hi)
    have ht := hmono i hi
    have hrow := @BatchedHyps.add_timestepRow_get h hwf c.active_indices c.labels
      c.time_indices c.scores hv.1 hv.2.1 hv.2.2.2.1 i hi
    constructor
    · rw [hrow, List.chain'_append]
      refine ⟨(hinv _ hb').1, List.chain'_singleton _, fun x hx y hy => ?_⟩
      have hy' : y = c.time_indices.getD i 0 := by
        simp only [List.head?_cons, Option.mem_def, Option.some.injEq] at hy
        exact hy.symm
      subst hy'
      by_cases hlen : 0 < h.lengths (c.active_indices.getD i 0)
      · rw [timestepRow_getLast h _ hlen, Option.mem_def, Option.some.injEq] at hx
        subst hx
        exact le_trans ((hinv _ hb').2 (h.lengths (c.active_indices.getD i 0) - 1)
          (by omega)) ht
      · have hz : h.lengths (c.active_indices.getD i 0) = 0 := by omega
        rw [BatchedHyps.timestepRow, hz] at hx
        simp at hx
    · intro j hj
      rw [h.add_lengths_get hv.1 hi] at hj
      rw [h.add_last_timestep_get hv.1 hv.2.2.2.1 hi]
      by_cases hjlt : j < h.lengths (c.active_indices.getD i 0)
      · rw [h.add_timesteps_lt hwf hv.2.1 hb' hjlt]
        exact le_trans ((hinv _ hb').2 j hjlt) ht
      · have hje : j = h.lengths (c.active_indices.getD i 0) := by omega
        subst hje
        rw [h.add_timesteps_get hwf hv.1 hv.2.1 hv.2.2.2.1 hi]
  · have hb2 : b < h.batch_size := hb
    rw [h.add_lengths_not_mem hmem, h.add_last_timestep_not_mem hmem,
      h.add_timestepRow_not_mem hwf hv.2.1 hb2 hmem]
    refine ⟨(hinv b hb2).1, fun j hj => ?_⟩
    rw [h.add_timesteps_lt hwf hv.2.1 hb2 hj]
    exact (hinv b hb2).2 j hj

theorem MonoInv_run_of (h : BatchedHyps) (hwf : h.Wf) (hinv : MonoInv h)
    (cs : List HypsCall) (hcs : ∀ c ∈ cs, c.Valid h.batch_size)
    (hfeed : MonotoneFeed h cs) : MonoInv (h.run cs) := by
  induction cs generalizing h with
  | nil => exact hinv
  | cons c rest ih =>
    rw [BatchedHyps.run_cons]
    have hv := hcs c (List.mem_cons_self c rest)
    refine ih _ (h.add_results_wf hwf hv.1 hv.2.1)
      (MonoInv_step h hwf c hv hfeed.1 hinv) (fun c' hc' => ?_) hfeed.2
    rw [BatchedHyps.add_results_batch_size]
    exact hcs c' (List.mem_cons_of_mem c hc')

/-! ## Basic lemmas for `BatchedAlignments` -/

theorem BatchedAlignments.add_trace_nil (a : BatchedAlignments)
    (logits : List (Nat → ℚ)) (labels : List Int) (confidence : Option (List ℚ)) :
    a.add_results [] logits labels confidence = a := rfl

theorem BatchedAlignments.add_trace_max_length (a : BatchedAlignments)
    (active : List Nat) (logits : List (Nat → ℚ)) (labels : List Int)
    (confidence : Option (List ℚ)) (hne : active ≠ []) :
    (a.add_results active logits labels confidence).max_length = a.grown.max_length := by
  rw [BatchedAlignments.add_results, if_neg (by simpa using hne)]

/-! ## Accessing materialized records -/

theorem batched_hyps_to_hypotheses_length (h : BatchedHyps)
    (al : Option BatchedAlignments) :
    (batched_hyps_to_hypotheses h al).length = h.batch_size := by
  rw [batched_hyps_to_hypotheses, List.length_map, List.length_range]

theorem batched_hyps_to_hypotheses_getD (h : BatchedHyps) (al : Option BatchedAlignments)
    {b : Nat} (hb : b < h.batch_size) :
    (batched_hyps_to_hypotheses h al).getD b defaultHypothesis =
      { score := h.scores b
        y_sequence := h.transcriptRow b
        timestep := h.timestepRow b
        alignments := al.map fun a2 =>
          (List.range (a2.lengths b)).map fun time_i =>
            (a2.labels (b, time_i),
              (List.range a2.logits_dim).map fun d => a2.logits (b, time_i) d)
        frame_confidence := al.bind fun a2 =>
          a2.frame_confidence.map fun fc =>
            [(List.range (a2.lengths b)).map fun j => fc (b, j)] } := by
  have hlen : b < (batched_hyps_to_hypotheses h al).length := by
    rw [batched_hyps_to_hypotheses_length]; exact hb
  rw [List.getD_eq_getElem _ _ hlen]
  have hb' : b < (List.range h.batch_size).length := by
    rw [List.length_range]; exact hb
  show ((List.range h.batch_size).map _)[b] = _
  rw [List.getElem_map, List.getElem_range]

theorem transcriptRow_length (h : BatchedHyps) (b : Nat) :
    (h.transcriptRow b).length = h.lengths b := by
  rw [BatchedHyps.transcriptRow, List.length_map, List.length_range]

/-! ## Concrete `BatchedAlignments` states -/

/-- A trace session with `batch_size=1`, `logits_dim=2`, capacity 1,
no confidence tracking, after one appended step: its buffer is full,
so the next `add_results_` will call `_allocate_more`. -/
def alignA : BatchedAlignments :=
  (BatchedAlignments.new 1 2 1 false).add_results [0] [fun _ => 0] [7] none

/-- A confidence-tracking session with `batch_size=2`, `logits_dim=2`,
capacity 2, after one append that carries confidence `1/2`. -/
def alignC : BatchedAlignments :=
  (BatchedAlignments.new 2 2 2 true).add_results [0] [fun _ => 0] [3] (some [(1 : ℚ)/2])

/-- The same append applied to a session without confidence tracking. -/
def alignD : BatchedAlignments :=
  (BatchedAlignments.new 2 2 2 false).add_results [0] [fun _ => 0] [3] (some [(1 : ℚ)/2])

/-! ## Claim C1: growth semantics of `_allocate_more` -/

/-- C1 (code bug, `BatchedAlignments._allocate_more`): on a full trace
session with `batch_size=1`, `logits_dim=2`, capacity 1, growth doubles
`_max_length` to 2 and leaves `labels`/`frame_confidence` consistent,
but `torch.cat(..., dim=-1)` on the 3-D logits buffer doubles the
feature axis instead of the step axis: the logits buffer still has
only 1 step slot per item while each step vector is widened from 2 to
4 entries, so the stored logits vectors are not preserved as 2-vectors,
no zero-filled tail step columns exist, and the next scatter write's
flat row index (here `0 * 2 + 1 = 1`) already reaches the total number
of logits step slots (`1 * 1 = 1`), i.e. it is out of bounds. -/
theorem C1_alignments_growth_code_bug :
    alignA.lengths 0 = 1 ∧ alignA.max_length = 1 ∧ alignA.logits_len = 1 ∧
    alignA.logits_dim = 2 ∧
    alignA.grown.max_length = 2 ∧
    alignA.grown.logits_len = 1 ∧
    alignA.grown.logits_dim = 4 ∧
    alignA.grown.batch_size * alignA.grown.logits_len ≤
      0 * alignA.grown.max_length + alignA.grown.lengths 0 := by
  decide

/-! ## Claim C3: confidence storage -/

/-- C3 (code bug, `frame_confidence` dtype): for a confidence-tracking
session, the append stores the confidence into a buffer allocated with
`dtype=torch.long` (line 309), so the scalar `1/2` cannot be read back:
the stored value is `0` (under cast semantics; strict PyTorch raises a
dtype-mismatch error on the same line).  The label write and the
length increment of the same call behave as specified, and a session
built without tracking ignores the provided confidences and keeps no
confidence buffer. -/
theorem C3_confidence_dtype_code_bug :
    (alignC.frame_confidence.map fun fc => fc (0, 0)) = some 0 ∧
    (1 : ℚ)/2 ≠ 0 ∧
    alignC.with_frame_confidence = true ∧
    alignC.lengths 0 = 1 ∧
    alignC.labels (0, 0) = 3 ∧
    alignD.frame_confidence.isNone = true ∧
    alignD.lengths 0 = 1 := by
  refine ⟨?_, by norm_num, by decide, by decide, by decide, by decide, by decide⟩
  norm_num [alignC, BatchedAlignments.add_results, BatchedAlignments.new,
    BatchedAlignments.grown, BatchedAlignments.allocate_more, maxOver, scatter, updFn,
    truncToLong, List.range_succ]
  decide

/-! ## Claim C5: the growth condition -/

/-- C5 (counterexample): after one append to item 0 the capacity is
full for item 0; a second call whose only active item is 1 (with
`lengths[1] = 0 <` capacity `1`) still reallocates, because the source
tests `self.lengths.max()` over the whole batch, not the active
subset. -/
theorem C5_counterexample :
    hypsA.max_length = 1 ∧ hypsA.lengths 1 = 0 ∧
    (hypsA.add_results [1] [4] [2] [1]).max_length = 2 := by
  decide

/-- C5 (amended): on every non-empty append to either accumulator,
capacity doubles before writing if and only if the maximum of
`lengths` over the whole batch (not merely the active subset) has
reached the capacity. -/
theorem C5_growth_condition :
    (∀ (h : BatchedHyps) (active : List Nat) (labels time_indices : List Int)
        (scores : List ℚ), active ≠ [] → 0 < h.max_length →
      ((∃ b, b < h.batch_size ∧ h.max_length ≤ h.lengths b) →
        (h.add_results active labels time_indices scores).max_length = 2 * h.max_length) ∧
      ((∀ b, b < h.batch_size → h.lengths b < h.max_length) →
        (h.add_results active labels time_indices scores).max_length = h.max_length)) ∧
    (∀ (a : BatchedAlignments) (active : List Nat) (logits : List (Nat → ℚ))
        (labels : List Int) (confidence : Option (List ℚ)), active ≠ [] →
        0 < a.max_length →
      ((∃ b, b < a.batch_size ∧ a.max_length ≤ a.lengths b) →
        (a.add_results active logits labels confidence).max_length = 2 * a.max_length) ∧
      ((∀ b, b < a.batch_size → a.lengths b < a.max_length) →
        (a.add_results active logits labels confidence).max_length = a.max_length)) := by
  constructor
  · intro h active labels time_indices scores hne hL
    constructor
    · rintro ⟨b, hb, hble⟩
      rw [h.add_results_max_length active labels time_indices scores hne, BatchedHyps.grown,
        if_pos (le_trans hble (le_maxOver_of_lt h.lengths hb))]
      rfl
    · intro hall
      rw [h.add_results_max_length active labels time_indices scores hne, BatchedHyps.grown,
        if_neg (by have := maxOver_lt h.lengths hL hall; omega)]
  · intro a active logits labels confidence hne hL
    constructor
    · rintro ⟨b, hb, hble⟩
      rw [a.add_trace_max_length active logits labels confidence hne,
        BatchedAlignments.grown,
        if_pos (le_trans hble (le_maxOver_of_lt a.lengths hb))]
      rfl
    · intro hall
      rw [a.add_trace_max_length active logits labels confidence hne,
        BatchedAlignments.grown,
        if_neg (by have := maxOver_lt a.lengths hL hall; omega)]

/-- Witness for C5: a call that forces doubling (full item 0, active
item 1) and calls on not-yet-full sessions that do not grow. -/
theorem C5_growth_condition_witness :
    (hypsA.add_results [1] [4] [2] [1]).max_length = 2 * hypsA.max_length ∧
    ((BatchedHyps.new 2 3).add_results [0] [5] [1] [1]).max_length =
      (BatchedHyps.new 2 3).max_length ∧
    (alignD.add_results [1] [fun _ => 0] [4] none).max_length = alignD.max_length :=
  ⟨(C5_growth_condition.1 hypsA [1] [4] [2] [1] (by decide) (by decide)).1
      ⟨0, by decide, by decide⟩,
    (C5_growth_condition.1 (BatchedHyps.new 2 3) [0] [5] [1] [1] (by decide) (by decide)).2
      (by decide),
    (C5_growth_condition.2 alignD [1] [fun _ => 0] [4] none (by decide) (by decide)).2
      (by decide)⟩

/-! ## Claim C4: construction validation -/

/-- C4 (counterexample): the claim says construction of the trace
accumulator raises exactly when a size parameter is non-positive,
including `logits_dim ≤ 0`; but `logits_dim = 0` is not validated and
construction succeeds (with an empty logits buffer). -/
theorem C4_counterexample :
    (BatchedAlignments.init 1 0 1 false).isOk = true ∧ (0 : Int) ≤ 0 := by
  exact ⟨by decide, le_refl 0⟩

/-- C4 (amended): `BatchedHyps` construction raises `ValueError`
exactly when `batch_size ≤ 0` or `init_length ≤ 0`;
`BatchedAlignments` construction additionally fails only for
`logits_dim < 0` (inside the tensor allocator, with a `RuntimeError`,
not the explicit argument check), while `logits_dim = 0` succeeds.
All successful constructions produce zero-initialized buffers with the
`last_timestep` sentinel `-1`, and the confidence buffer exists
exactly when tracking is requested. -/
theorem C4_construction_validation :
    (∀ batch_size init_length : Int,
      (BatchedHyps.init batch_size init_length).isOk = true ↔
        0 < batch_size ∧ 0 < init_length) ∧
    (∀ batch_size logits_dim init_length : Int, ∀ w : Bool,
      (BatchedAlignments.init batch_size logits_dim init_length w).isOk = true ↔
        0 < batch_size ∧ 0 < init_length ∧ 0 ≤ logits_dim) ∧
    (∀ batch_size init_length : Int, 0 < batch_size → 0 < init_length →
      BatchedHyps.init batch_size init_length =
        .ok (BatchedHyps.new batch_size.toNat init_length.toNat)) ∧
    (∀ batch_size logits_dim init_length : Int, ∀ w : Bool,
      0 < batch_size → 0 < init_length → 0 ≤ logits_dim →
      BatchedAlignments.init batch_size logits_dim init_length w =
        .ok (BatchedAlignments.new batch_size.toNat logits_dim.toNat init_length.toNat w)) ∧
    (∀ n m b j : Nat,
      (BatchedHyps.new n m).lengths b = 0 ∧ (BatchedHyps.new n m).scores b = 0 ∧
      (BatchedHyps.new n m).transcript (b, j) = 0 ∧
      (BatchedHyps.new n m).timesteps (b, j) = 0 ∧
      (BatchedHyps.new n m).last_timestep_lasts b = 0 ∧
      (BatchedHyps.new n m).last_timestep b = -1) ∧
    (∀ n d m : Nat, ∀ w : Bool, ∀ b j k : Nat,
      (BatchedAlignments.new n d m w).lengths b = 0 ∧
      (BatchedAlignments.new n d m w).labels (b, j) = 0 ∧
      (BatchedAlignments.new n d m w).logits (b, j) k = 0 ∧
      (BatchedAlignments.new n d m w).frame_confidence.isSome = w) := by
  refine ⟨?_, ?_, ?_, ?_, ?_, ?_⟩
  · intro bs len
    rw [BatchedHyps.init]
    split_ifs with h1 h2
    · simp only [Except.isOk, Except.toBool]
      constructor
      · intro hF; exact absurd hF (by simp)
      · intro hc; omega
    · simp only [Except.isOk, Except.toBool]
      constructor
      · intro hF; exact absurd hF (by simp)
      · intro hc; omega
    · simp only [Except.isOk, Except.toBool]
      constructor
      · intro _; omega
      · intro _; trivial
  · intro bs dim len w
    rw [BatchedAlignments.init]
    split_ifs with h1 h2 h3
    · simp only [Except.isOk, Except.toBool]
      constructor
      · intro hF; exact absurd hF (by simp)
      · intro hc; omega
    · simp only [Except.isOk, Except.toBool]
      constructor
      · intro hF; exact absurd hF (by simp)
      · intro hc; omega
    · simp only [Except.isOk, Except.toBool]
      constructor
      · intro hF; exact absurd hF (by simp)
      · intro hc; omega
    · simp only [Except.isOk, Except.toBool]
      constructor
      · intro _; omega
      · intro _; trivial
  · intro bs len h1 h2
    rw [BatchedHyps.init, if_neg (by omega), if_neg (by omega)]
  · intro bs dim len w h1 h2 h3
    rw [BatchedAlignments.init, if_neg (by omega), if_neg (by omega), if_neg (by omega)]
  · exact fun n m b j => ⟨rfl, rfl, rfl, rfl, rfl, rfl⟩
  · intro n d m w b j k
    refine ⟨rfl, rfl, rfl, ?_⟩
    cases w <;> rfl

/-- Witness for C4: concrete successful constructions. -/
theorem C4_construction_validation_witness :
    (0 : Int) < 2 ∧ (0 : Int) < 3 ∧ (0 : Int) ≤ 4 ∧
    BatchedHyps.init 2 3 = .ok (BatchedHyps.new 2 3) ∧
    BatchedAlignments.init 2 4 3 true = .ok (BatchedAlignments.new 2 4 3 true) :=
  ⟨by decide, by decide, by decide,
    C4_construction_validation.2.2.1 2 3 (by decide) (by decide),
    C4_construction_validation.2.2.2.1 2 4 3 true (by decide) (by decide) (by decide)⟩

/-! ## Claim C6: the per-item append rule -/

/-- C6: one `add_results_` call applies, for every aligned tuple
`(b, label, t, d)` of the call, the updates
`score[b] += d`, `transcript[b, lengths[b]] = label`,
`timesteps[b, lengths[b]] = t`,
`last_timestep_lasts[b] = last_timestep_lasts[b] + 1` if
`last_timestep[b] == t` else `1`, `last_timestep[b] = t`, and
`lengths[b] += 1`; and the concrete two-append scenario of the spec
produces exactly the stated state. -/
theorem C6_append_effect (h : BatchedHyps) (hwf : h.Wf) (c : HypsCall)
    (hv : c.Valid h.batch_size) (i : Nat) (hi : i < c.active_indices.length) :
    ((h.add_results c.active_indices c.labels c.time_indices c.scores).scores
        (c.active_indices.getD i 0) =
      h.scores (c.active_indices.getD i 0) + c.scores.getD i 0 ∧
     (h.add_results c.active_indices c.labels c.time_indices c.scores).transcript
        (c.active_indices.getD i 0, h.lengths (c.active_indices.getD i 0)) =
      c.labels.getD i 0 ∧
     (h.add_results c.active_indices c.labels c.time_indices c.scores).timesteps
        (c.active_indices.getD i 0, h.lengths (c.active_indices.getD i 0)) =
      c.time_indices.getD i 0 ∧
     (h.add_results c.active_indices c.labels c.time_indices c.scores).last_timestep_lasts
        (c.active_indices.getD i 0) =
      (if h.last_timestep (c.active_indices.getD i 0) = c.time_indices.getD i 0 then
        h.last_timestep_lasts (c.active_indices.getD i 0) + 1 else 1) ∧
     (h.add_results c.active_indices c.labels c.time_indices c.scores).last_timestep
        (c.active_indices.getD i 0) = c.time_indices.getD i 0 ∧
     (h.add_results c.active_indices c.labels c.time_indices c.scores).lengths
        (c.active_indices.getD i 0) = h.lengths (c.active_indices.getD i 0) + 1) ∧
    (hypsB.lengths 0 = 2 ∧ hypsB.lengths 1 = 1 ∧
     hypsB.transcriptRow 0 = [5, 2] ∧ hypsB.transcriptRow 1 = [4] ∧
     hypsB.timestepRow 0 = [1, 1] ∧ hypsB.timestepRow 1 = [2] ∧
     hypsB.scores 0 = 3/2 ∧ hypsB.scores 1 = 1 ∧
     hypsB.last_timestep 0 = 1 ∧ hypsB.last_timestep 1 = 2 ∧
     hypsB.last_timestep_lasts 0 = 2 ∧ hypsB.last_timestep_lasts 1 = 1) := by
  refine ⟨⟨h.add_scores_get hv.1 hv.2.2.2.2 hi,
    h.add_transcript_get hwf hv.1 hv.2.1 hv.2.2.1 hi,
    h.add_timesteps_get hwf hv.1 hv.2.1 hv.2.2.2.1 hi,
    h.add_last_timestep_lasts_get hv.1 hv.2.2.2.1 hi,
    h.add_last_timestep_get hv.1 hv.2.2.2.1 hi,
    h.add_lengths_get hv.1 hi⟩,
    by decide, by decide, by decide, by decide, by decide, by decide, ?_, ?_,
    by decide, by decide, by decide, by decide⟩
  · norm_num [hypsB, hypsA, BatchedHyps.add_results, BatchedHyps.new, BatchedHyps.grown,
      BatchedHyps.allocate_more, maxOver, scatter, updFn, List.range_succ]
  · norm_num [hypsB, hypsA, BatchedHyps.add_results, BatchedHyps.new, BatchedHyps.grown,
      BatchedHyps.allocate_more, maxOver, scatter, updFn, List.range_succ]

/-- The two calls of the spec's append scenario as `HypsCall` values. -/
def callA : HypsCall := ⟨[0], [5], [1], [(1 : ℚ)/2]⟩

def callB : HypsCall := ⟨[0, 1], [2, 4], [1, 2], [1, 1]⟩

/-- Witness for C6: the effect theorem applied to the second call of
the concrete scenario at item 1. -/
theorem C6_append_effect_witness :
    hypsA.Wf ∧ HypsCall.Valid hypsA.batch_size callB ∧
    (hypsA.add_results [0, 1] [2, 4] [1, 2] [1, 1]).lengths 1 = hypsA.lengths 1 + 1 :=
  have hwf : hypsA.Wf := by unfold BatchedHyps.Wf; decide
  have hv : HypsCall.Valid hypsA.batch_size callB := by unfold HypsCall.Valid; decide
  ⟨hwf, hv, (C6_append_effect hypsA hwf callB hv 1 (by decide)).1.2.2.2.2.2⟩

/-! ## Claim C7: materialization -/

theorem timestepRow_length (h : BatchedHyps) (b : Nat) :
    (h.timestepRow b).length = h.lengths b := by
  rw [BatchedHyps.timestepRow, List.length_map, List.length_range]

/-- C7: `batched_hyps_to_hypotheses` returns one record per batch
index in order; record `b` carries `scores[b]`, the label sequence
`transcript[b, 0:lengths[b]]` and the time indices
`timesteps[b, 0:lengths[b]]`, and the materialized label sequence has
length exactly `lengths[b]`; on the concrete two-append scenario the
records are `([5,2], score 3/2, times [1,1])` and
`([4], score 1, times [2])`. -/
theorem C7_materialization (h : BatchedHyps) (al : Option BatchedAlignments) :
    ((batched_hyps_to_hypotheses h al).length = h.batch_size ∧
      ∀ b, b < h.batch_size →
        ((batched_hyps_to_hypotheses h al).getD b defaultHypothesis).score = h.scores b ∧
        ((batched_hyps_to_hypotheses h al).getD b defaultHypothesis).y_sequence =
          h.transcriptRow b ∧
        ((batched_hyps_to_hypotheses h al).getD b defaultHypothesis).timestep =
          h.timestepRow b ∧
        ((batched_hyps_to_hypotheses h al).getD b defaultHypothesis).y_sequence.length =
          h.lengths b) ∧
    ((batched_hyps_to_hypotheses hypsB none).length = 2 ∧
     ((batched_hyps_to_hypotheses hypsB none).getD 0 defaultHypothesis).y_sequence =
       [5, 2] ∧
     ((batched_hyps_to_hypotheses hypsB none).getD 1 defaultHypothesis).y_sequence = [4] ∧
     ((batched_hyps_to_hypotheses hypsB none).getD 0 defaultHypothesis).timestep =
       [1, 1] ∧
     ((batched_hyps_to_hypotheses hypsB none).getD 1 defaultHypothesis).timestep = [2] ∧
     ((batched_hyps_to_hypotheses hypsB none).getD 0 defaultHypothesis).score = 3/2 ∧
     ((batched_hyps_to_hypotheses hypsB none).getD 1 defaultHypothesis).score = 1) := by
  refine ⟨⟨batched_hyps_to_hypotheses_length h al, fun b hb => ?_⟩,
    by decide, by decide, by decide, by decide, by decide, ?_, ?_⟩
  · rw [batched_hyps_to_hypotheses_getD h al hb]
    exact ⟨rfl, rfl, rfl, transcriptRow_length h b⟩
  · norm_num [batched_hyps_to_hypotheses, hypsB, hypsA, BatchedHyps.add_results,
      BatchedHyps.new, BatchedHyps.grown, BatchedHyps.allocate_more, maxOver, scatter,
      updFn, List.range_succ]
  · norm_num [batched_hyps_to_hypotheses, hypsB, hypsA, BatchedHyps.add_results,
      BatchedHyps.new, BatchedHyps.grown, BatchedHyps.allocate_more, maxOver, scatter,
      updFn, List.range_succ]

/-- Witness for C7: the general record description applied at batch
item 0 of the concrete scenario. -/
theorem C7_materialization_witness :
    (0 : Nat) < hypsB.batch_size ∧
    ((batched_hyps_to_hypotheses hypsB none).getD 0 defaultHypothesis).y_sequence =
      hypsB.transcriptRow 0 :=
  ⟨by decide, ((C7_materialization hypsB none).1.2 0 (by decide)).2.1⟩

/-! ## Claim C8: the repeat-count invariant -/

/-- In a state satisfying `RepeatInv`, every entry inside the trailing
run equals `last_timestep`. -/
theorem RepeatInv_trailing (s : BatchedHyps) (hinv : RepeatInv s) (b : Nat)
    (hb : b < s.batch_size) (j : Nat)
    (hj1 : s.lengths b - trailRun (s.timestepRow b) ≤ j) (hj2 : j < s.lengths b) :
    s.timesteps (b, j) = s.last_timestep b := by
  have hlast := (hinv b hb).2 (by omega)
  have hrl : (s.timestepRow b).length = s.lengths b := timestepRow_length s b
  have hspec := trailRun_spec (s.timestepRow b) (j := j) (by rw [hrl]; exact hj1)
    (by rw [hrl]; exact hj2)
  rw [hlast] at hspec
  have hentry : (s.timestepRow b).getD j 0 = s.timesteps (b, j) := by
    rw [List.getD_eq_getElem _ _ (by rw [hrl]; exact hj2)]
    have hj3 : j < ((List.range (s.lengths b)).map fun j => s.timesteps (b, j)).length := by
      rw [List.length_map, List.length_range]; exact hj2
    show ((List.range (s.lengths b)).map fun j => s.timesteps (b, j))[j] = _
    rw [List.getElem_map, List.getElem_range]
  rw [hentry] at hspec
  exact Option.some.inj hspec

/-- C8: after any prefix of any valid call sequence from a fresh
accumulator, `last_timestep_lasts[b]` equals the number of trailing
equal entries of `timesteps[b, 0:lengths[b]]`, and those trailing
entries all equal `last_timestep[b]`. -/
theorem C8_repeat_count_invariant (batch_size init_length : Nat)
    (hbs : 0 < batch_size) (hL : 0 < init_length) (cs : List HypsCall)
    (hcs : ∀ c ∈ cs, c.Valid batch_size) (b : Nat) (hb : b < batch_size) :
    ((BatchedHyps.new batch_size init_length).run cs).last_timestep_lasts b =
      (trailRun (((BatchedHyps.new batch_size init_length).run cs).timestepRow b) : Int) ∧
    ∀ j,
      ((BatchedHyps.new batch_size init_length).run cs).lengths b -
          trailRun (((BatchedHyps.new batch_size init_length).run cs).timestepRow b) ≤ j →
      j < ((BatchedHyps.new batch_size init_length).run cs).lengths b →
      ((BatchedHyps.new batch_size init_length).run cs).timesteps (b, j) =
        ((BatchedHyps.new batch_size init_length).run cs).last_timestep b := by
  have hwf : (BatchedHyps.new batch_size init_length).Wf :=
    ⟨hbs, hL, fun b' _ => Nat.zero_le _⟩
  have hinv := RepeatInv_run_of (BatchedHyps.new batch_size init_length) hwf
    (RepeatInv_new batch_size init_length) cs hcs
  have hb2 : b < ((BatchedHyps.new batch_size init_length).run cs).batch_size := by
    rw [BatchedHyps.run_batch_size]; exact hb
  exact ⟨(hinv b hb2).1,
    fun j hj1 hj2 => RepeatInv_trailing _ hinv b hb2 j hj1 hj2⟩

/-- Witness for C8: the invariant evaluated after the two calls of the
concrete scenario. -/
theorem C8_repeat_count_invariant_witness :
    (0 < 2 ∧ 0 < 1 ∧ (∀ c ∈ [callA, callB], HypsCall.Valid 2 c)) ∧
    ((BatchedHyps.new 2 1).run [callA, callB]).last_timestep_lasts 0 =
      (trailRun (((BatchedHyps.new 2 1).run [callA, callB]).timestepRow 0) : Int) :=
  ⟨⟨by decide, by decide, by unfold HypsCall.Valid; decide⟩,
    (C8_repeat_count_invariant 2 1 (by decide) (by decide) [callA, callB]
      (by unfold HypsCall.Valid; decide) 0 (by decide)).1⟩

/-! ## Claim C9: monotonicity of stored time indices -/

/-- A state reached by appending time 5 and then time 3 for the same
item: the accumulator stores the decreasing sequence unchanged. -/
def hypsD : BatchedHyps :=
  ((BatchedHyps.new 1 2).add_results [0] [9] [5] [1]).add_results [0] [8] [3] [1]

/-- C9 (counterexample): two valid appends (distinct, in-range active
indices) with decreasing time indices leave
`timesteps[0, 0:2] = [5, 3]`, which is not non-decreasing: the
accumulator does not maintain the claimed invariant by itself. -/
theorem C9_counterexample :
    hypsD.lengths 0 = 2 ∧ hypsD.timesteps (0, 0) = 5 ∧ hypsD.timesteps (0, 1) = 3 ∧
    ¬ List.Chain' (· ≤ ·) (hypsD.timestepRow 0) := by
  have hrow : hypsD.timestepRow 0 = [5, 3] := by decide
  refine ⟨by decide, by decide, by decide, ?_⟩
  rw [hrow, List.chain'_cons]
  intro hch
  exact absurd hch.1 (by decide)

/-- C9 (amended): the stored time indices are non-decreasing provided
the decoding loop feeds, at every call, time indices that are at least
the item's current `last_timestep` (the caller obligation
`MonotoneFeed`). -/
theorem C9_monotone_under_feed (batch_size init_length : Nat) (hbs : 0 < batch_size)
    (hL : 0 < init_length) (cs : List HypsCall)
    (hcs : ∀ c ∈ cs, c.Valid batch_size)
    (hfeed : MonotoneFeed (BatchedHyps.new batch_size init_length) cs)
    (b : Nat) (hb : b < batch_size) :
    List.Chain' (· ≤ ·) (((BatchedHyps.new batch_size init_length).run cs).timestepRow b) := by
  have hwf : (BatchedHyps.new batch_size init_length).Wf :=
    ⟨hbs, hL, fun b' _ => Nat.zero_le _⟩
  have hinv := MonoInv_run_of (BatchedHyps.new batch_size init_length) hwf
    (MonoInv_new batch_size init_length) cs hcs hfeed
  exact (hinv b (by rw [BatchedHyps.run_batch_size]; exact hb)).1

/-- Witness for C9: the concrete scenario's calls satisfy the feed
obligation and yield a non-decreasing row. -/
theorem C9_monotone_under_feed_witness :
    (0 < 2 ∧ 0 < 1 ∧ (∀ c ∈ [callA, callB], HypsCall.Valid 2 c) ∧
      MonotoneFeed (BatchedHyps.new 2 1) [callA, callB]) ∧
    List.Chain' (· ≤ ·) (((BatchedHyps.new 2 1).run [callA, callB]).timestepRow 0) :=
  have hfeed : MonotoneFeed (BatchedHyps.new 2 1) [callA, callB] :=
    ⟨by unfold HypsCall.MonotoneAt; decide, by unfold HypsCall.MonotoneAt; decide, trivial⟩
  ⟨⟨by decide, by decide, by unfold HypsCall.Valid; decide, hfeed⟩,
    C9_monotone_under_feed 2 1 (by decide) (by decide) [callA, callB]
      (by unfold HypsCall.Valid; decide) hfeed 0 (by decide)⟩

/-! ## Claim C10: scatter writes stay in bounds -/

theorem flat_decode_div {L b r : Nat} (hr : r < L) : (b * L + r) / L = b := by
  have hL : 0 < L := by omega
  rw [Nat.mul_comm b L, Nat.mul_add_div hL, Nat.div_eq_of_lt hr]
  omega

theorem flat_decode_mod {L b r : Nat} (hr : r < L) : (b * L + r) % L = r := by
  rw [Nat.mul_comm b L, Nat.mul_add_mod, Nat.mod_eq_of_lt hr]

/-- C10: after any valid call sequence from a fresh accumulator,
every `lengths[b]` is at most the capacity, and for any further valid
non-trivial call the flat scatter index
`b * _max_length + lengths[b]` computed after the growth step lies
strictly inside the `batch_size * _max_length` buffer and decodes to
row `b`, column `lengths[b]`: no write lands in another item's row or
out of bounds. -/
theorem C10_scatter_in_bounds (batch_size init_length : Nat) (hbs : 0 < batch_size)
    (hL : 0 < init_length) (cs : List HypsCall) (hcs : ∀ c ∈ cs, c.Valid batch_size) :
    (∀ b, b < batch_size →
      ((BatchedHyps.new batch_size init_length).run cs).lengths b ≤
        ((BatchedHyps.new batch_size init_length).run cs).max_length) ∧
    ∀ c : HypsCall, c.Valid batch_size → ∀ i, i < c.active_indices.length →
      (c.active_indices.getD i 0 *
            ((BatchedHyps.new batch_size init_length).run cs).grown.max_length +
          ((BatchedHyps.new batch_size init_length).run cs).grown.lengths
            (c.active_indices.getD i 0) <
        batch_size * ((BatchedHyps.new batch_size init_length).run cs).grown.max_length) ∧
      ((c.active_indices.getD i 0 *
            ((BatchedHyps.new batch_size init_length).run cs).grown.max_length +
          ((BatchedHyps.new batch_size init_length).run cs).grown.lengths
            (c.active_indices.getD i 0)) /
          ((BatchedHyps.new batch_size init_length).run cs).grown.max_length =
        c.active_indices.getD i 0) ∧
      ((c.active_indices.getD i 0 *
            ((BatchedHyps.new batch_size init_length).run cs).grown.max_length +
          ((BatchedHyps.new batch_size init_length).run cs).grown.lengths
            (c.active_indices.getD i 0)) %
          ((BatchedHyps.new batch_size init_length).run cs).grown.max_length =
        ((BatchedHyps.new batch_size init_length).run cs).grown.lengths
          (c.active_indices.getD i 0)) := by
  have hwf : (BatchedHyps.new batch_size init_length).Wf :=
    ⟨hbs, hL, fun b' _ => Nat.zero_le _⟩
  have hrwf := BatchedHyps.run_wf (BatchedHyps.new batch_size init_length) hwf cs hcs
  have hrbs := BatchedHyps.run_batch_size (BatchedHyps.new batch_size init_length) cs
  constructor
  · intro b hb
    exact hrwf.2.2 b (by rw [hrbs]; exact hb)
  · intro c hv i hi
    have hbmem : c.active_indices.getD i 0 < batch_size :=
      hv.2.1 _ (getD_mem_of_lt _ hi)
    have hlt := BatchedHyps.grown_lengths_lt _ hrwf (c.active_indices.getD i 0)
      (by rw [hrbs]; exact hbmem)
    rw [BatchedHyps.grown_lengths] at *
    refine ⟨?_, flat_decode_div hlt, flat_decode_mod hlt⟩
    calc c.active_indices.getD i 0 *
          ((BatchedHyps.new batch_size init_length).run cs).grown.max_length +
        ((BatchedHyps.new batch_size init_length).run cs).lengths
          (c.active_indices.getD i 0)
        < (c.active_indices.getD i 0 + 1) *
          ((BatchedHyps.new batch_size init_length).run cs).grown.max_length := by
          rw [Nat.add_mul, Nat.one_mul]; omega
      _ ≤ batch_size *
          ((BatchedHyps.new batch_size init_length).run cs).grown.max_length :=
          Nat.mul_le_mul_right _ (by omega)

/-- Witness for C10: the in-bounds facts for a further call after the
concrete scenario's first call. -/
theorem C10_scatter_in_bounds_witness :
    (0 < 2 ∧ 0 < 1 ∧ (∀ c ∈ [callA], HypsCall.Valid 2 c) ∧
      HypsCall.Valid 2 callB ∧ (1 : Nat) < callB.active_indices.length) ∧
    (callB.active_indices.getD 1 0 *
        ((BatchedHyps.new 2 1).run [callA]).grown.max_length +
      ((BatchedHyps.new 2 1).run [callA]).grown.lengths (callB.active_indices.getD 1 0) <
      2 * ((BatchedHyps.new 2 1).run [callA]).grown.max_length) :=
  ⟨⟨by decide, by decide, by unfold HypsCall.Valid; decide,
      by unfold HypsCall.Valid; decide, by decide⟩,
    ((C10_scatter_in_bounds 2 1 (by decide) (by decide) [callA]
      (by unfold HypsCall.Valid; decide)).2 callB
      (by unfold HypsCall.Valid; decide) 1 (by decide)).1⟩

/-! ## Storage-level model for materialization aliasing (claim C2)

The functional model above identifies a tensor with the values it
holds, which cannot express aliasing.  The `Mem` namespace re-embeds
`BatchedHyps` and `batched_hyps_to_hypotheses` at the storage level:
the 2-D `transcript`/`timesteps` tensors live in an explicit heap of
row-major storages addressed by buffer ids, `torch.cat` (inside
`_allocate_more`) allocates fresh buffers, the scatter writes of
`add_results_` mutate the heap, and the slices
`transcript[i, : lengths[i]]` taken by `batched_hyps_to_hypotheses`
are views (buffer id, base offset, length) — exactly PyTorch's basic
slicing semantics.  `scores` stays a plain value because
`batched_hyps_to_hypotheses` copies it out with `.item()`. -/

namespace Mem

/-- A heap of tensor storages: buffer id → flat offset → value. -/
def Heap : Type := Nat → Nat → Int

/-- One in-place element write. -/
def Heap.write (hp : Heap) (buf off : Nat) (v : Int) : Heap :=
  fun b o => if b = buf ∧ o = off then v else hp b o

/-- `BatchedHyps` with its 2-D buffers held as heap ids. -/
structure HypsState where
  batch_size : Nat
  max_length : Nat
  transcript_buf : Nat
  timesteps_buf : Nat
  next_buf : Nat
  lengths : Nat → Nat
  scores : Nat → ℚ
  last_timestep_lasts : Nat → Int
  last_timestep : Nat → Int

/-- `BatchedHyps.__init__` at storage level (argument validation is
covered by the functional model): two fresh zero-filled storages. -/
def new (batch_size init_length : Nat) : HypsState × Heap :=
  ({ batch_size := batch_size
     max_length := init_length
     transcript_buf := 0
     timesteps_buf := 1
     next_buf := 2
     lengths := fun _ => 0
     scores := fun _ => 0
     last_timestep_lasts := fun _ => 0
     last_timestep := fun _ => -1 },
   fun _ _ => 0)

/-- `_allocate_more` at storage level: `torch.cat` returns fresh
storages whose row-major layout (stride `2 * max_length`) holds each
old row followed by `max_length` zero columns; the old storages are
left untouched (existing views keep seeing them). -/
def HypsState.allocate_more (s : HypsState) (hp : Heap) : HypsState × Heap :=
  let L := s.max_length
  let hp2 : Heap := fun bId o =>
    if bId = s.next_buf then
      (if o % (2 * L) < L then hp s.transcript_buf (o / (2 * L) * L + o % (2 * L)) else 0)
    else if bId = s.next_buf + 1 then
      (if o % (2 * L) < L then hp s.timesteps_buf (o / (2 * L) * L + o % (2 * L)) else 0)
    else hp bId o
  ({ s with
      transcript_buf := s.next_buf
      timesteps_buf := s.next_buf + 1
      next_buf := s.next_buf + 2
      max_length := 2 * L }, hp2)

/-- The growth check of `add_results_` (lines 271-272). -/
def HypsState.grown (s : HypsState) (hp : Heap) : HypsState × Heap :=
  if maxOver s.lengths s.batch_size ≥ s.max_length then s.allocate_more hp else (s, hp)

/-- `add_results_` at storage level (lines 257-281): the flat scatter
writes `transcript.view(-1)[indices_to_use] = labels` mutate the
current storages in place; the 1-D bookkeeping updates are as in the
functional model. -/
def HypsState.add_results (s : HypsState) (hp : Heap) (active_indices : List Nat)
    (labels time_indices : List Int) (scores : List ℚ) : HypsState × Heap :=
  if active_indices.length = 0 then (s, hp)
  else
    let sh := s.grown hp
    let s1 := sh.1
    let indices_to_use := active_indices.map fun b => b * s1.max_length + s1.lengths b
    let hp2 := (indices_to_use.zip labels).foldl
      (fun acc kv => acc.write s1.transcript_buf kv.1 kv.2) sh.2
    let hp3 := (indices_to_use.zip time_indices).foldl
      (fun acc kv => acc.write s1.timesteps_buf kv.1 kv.2) hp2
    ({ s1 with
        scores := scatter s1.scores
          ((active_indices.zip scores).map fun bs => (bs.1, s1.scores bs.1 + bs.2))
        last_timestep_lasts := scatter s1.last_timestep_lasts
          ((active_indices.zip time_indices).map fun bt =>
            (bt.1, if s1.last_timestep bt.1 = bt.2 then
              s1.last_timestep_lasts bt.1 + 1 else 1))
        last_timestep := scatter s1.last_timestep (active_indices.zip time_indices)
        lengths := scatter s1.lengths (active_indices.map fun b => (b, s1.lengths b + 1)) },
     hp3)

/-- Apply a sequence of calls. -/
def run (s : HypsState) (hp : Heap) (cs : List HypsCall) : HypsState × Heap :=
  cs.foldl
    (fun sh c => sh.1.add_results sh.2 c.active_indices c.labels c.time_indices c.scores)
    (s, hp)

/-- A trimmed row slice `tensor[i, : len]`: torch basic slicing
returns a view — buffer id, base offset and length — not a copy. -/
structure TensorView where
  buf : Nat
  base : Nat
  len : Nat

/-- Reading a view against the current heap. -/
def readView (hp : Heap) (v : TensorView) : List Int :=
  (List.range v.len).map fun j => hp v.buf (v.base + j)

/-- The tensor-backed fields of a materialized `Hypothesis`: `score`
is copied out by `.item()`; `y_sequence` and `timestep` are views. -/
structure HypothesisRef where
  score : ℚ
  y_sequence : TensorView
  timestep : TensorView

/-- Fallback record for `List.getD`. -/
def defaultRef : HypothesisRef :=
  { score := 0, y_sequence := ⟨0, 0, 0⟩, timestep := ⟨0, 0, 0⟩ }

/-- `batched_hyps_to_hypotheses` (lines 377-393) at storage level:
`y_sequence = transcript[i, : lengths[i]]` is the view with base
offset `i * max_length` into the transcript storage, similarly for
`timestep`; no heap write happens. -/
def hypsToHypotheses (s : HypsState) : List HypothesisRef :=
  (List.range s.batch_size).map fun i =>
    { score := s.scores i
      y_sequence := { buf := s.transcript_buf, base := i * s.max_length, len := s.lengths i }
      timestep := { buf := s.timesteps_buf, base := i * s.max_length, len := s.lengths i } }

end Mem

/-! ## Claim C2: aliasing of materialized records -/

/-- The single-append scenario in the storage model. -/
def memB : Mem.HypsState × Mem.Heap :=
  (Mem.new 2 1).1.add_results (Mem.new 2 1).2 [0] [5] [1] [(1 : ℚ)/2]

/-- The materialized records of `memB`. -/
def memRecs : List Mem.HypothesisRef := Mem.hypsToHypotheses memB.1

/-- The heap of `memB` after one in-place buffer write: position
`(0, 0)` of the transcript storage is overwritten with `99`. -/
def memMut : Mem.Heap := memB.2.write memB.1.transcript_buf 0 99

/-- C2 (counterexample): `y_sequence` of an already-materialized
record reads `[5]` before and `[99]` after a subsequent in-place write
into the accumulator's transcript buffer: the record aliases the
accumulator storage rather than owning a deep copy, so mutating the
accumulator alters the materialized payload. -/
theorem C2_counterexample :
    Mem.readView memB.2 ((memRecs.getD 0 Mem.defaultRef).y_sequence) = [5] ∧
    Mem.readView memMut ((memRecs.getD 0 Mem.defaultRef).y_sequence) = [99] := by
  decide

theorem Mem.hypsToHypotheses_getD (s : Mem.HypsState) {b : Nat} (hb : b < s.batch_size) :
    (Mem.hypsToHypotheses s).getD b Mem.defaultRef =
      { score := s.scores b
        y_sequence :=
          { buf := s.transcript_buf, base := b * s.max_length, len := s.lengths b }
        timestep :=
          { buf := s.timesteps_buf, base := b * s.max_length, len := s.lengths b } } := by
  have hlen : b < (Mem.hypsToHypotheses s).length := by
    rw [Mem.hypsToHypotheses, List.length_map, List.length_range]; exact hb
  rw [List.getD_eq_getElem _ _ hlen]
  have hb' : b < (List.range s.batch_size).length := by
    rw [List.length_range]; exact hb
  show ((List.range s.batch_size).map _)[b] = _
  rw [List.getElem_map, List.getElem_range]

/-- Storage-level well-formedness: sizes positive, lengths within
capacity, the live buffer ids already allocated and distinct. -/
def Mem.HypsState.Wf (s : Mem.HypsState) : Prop :=
  0 < s.batch_size ∧ 0 < s.max_length ∧
    (∀ b, b < s.batch_size → s.lengths b ≤ s.max_length) ∧
    s.transcript_buf < s.next_buf ∧ s.timesteps_buf < s.next_buf ∧
    s.transcript_buf ≠ s.timesteps_buf

/-- How a later state relates to the state `s0` at materialization
time: same batch, allocator monotone, lengths monotone, and the live
buffers are either still the ones of `s0` (with unchanged stride) or
freshly allocated after `s0`. -/
def Mem.Tracks (s0 s : Mem.HypsState) : Prop :=
  s.batch_size = s0.batch_size ∧ s0.next_buf ≤ s.next_buf ∧
    (∀ b, b < s0.batch_size → s0.lengths b ≤ s.lengths b) ∧
    ((s.transcript_buf = s0.transcript_buf ∧ s.timesteps_buf = s0.timesteps_buf ∧
        s.max_length = s0.max_length) ∨
      (s0.next_buf ≤ s.transcript_buf ∧ s0.next_buf ≤ s.timesteps_buf))

/-- The heap cells covered by the views materialized at state `s0`
hold the same values in `hp2` as in `hp`. -/
def Mem.Preserved (s0 : Mem.HypsState) (hp hp2 : Mem.Heap) : Prop :=
  ∀ b j, b < s0.batch_size → j < s0.lengths b →
    hp2 s0.transcript_buf (b * s0.max_length + j) =
      hp s0.transcript_buf (b * s0.max_length + j) ∧
    hp2 s0.timesteps_buf (b * s0.max_length + j) =
      hp s0.timesteps_buf (b * s0.max_length + j)

theorem Mem.Tracks.refl (s : Mem.HypsState) : Mem.Tracks s s :=
  ⟨rfl, le_refl _, fun _ _ => le_refl _, Or.inl ⟨rfl, rfl, rfl⟩⟩

theorem Mem.grown_eq_cases (s : Mem.HypsState) (hp : Mem.Heap) :
    (s.grown hp = (s, hp) ∧ maxOver s.lengths s.batch_size < s.max_length) ∨
    (s.grown hp = s.allocate_more hp ∧ s.max_length ≤ maxOver s.lengths s.batch_size) := by
  rw [Mem.HypsState.grown]
  split
  · right; exact ⟨rfl, by omega⟩
  · left; exact ⟨rfl, by omega⟩

theorem Mem.allocate_more_heap_lt (s : Mem.HypsState) (hp : Mem.Heap) (bId o : Nat)
    (hb : bId < s.next_buf) : (s.allocate_more hp).2 bId o = hp bId o := by
  show (if bId = s.next_buf then _ else if bId = s.next_buf + 1 then _ else hp bId o) =
    hp bId o
  rw [if_neg (by omega), if_neg (by omega)]

theorem Mem.add_results_state_nil (s : Mem.HypsState) (hp : Mem.Heap)
    (labels time_indices : List Int) (scores : List ℚ) :
    s.add_results hp [] labels time_indices scores = (s, hp) := rfl

theorem Mem.add_results_fst (s : Mem.HypsState) (hp : Mem.Heap) (active : List Nat)
    (labels time_indices : List Int) (scores : List ℚ) (hne : active ≠ []) :
    (s.add_results hp active labels time_indices scores).1 =
      { (s.grown hp).1 with
        scores := scatter (s.grown hp).1.scores
          ((active.zip scores).map fun bs => (bs.1, (s.grown hp).1.scores bs.1 + bs.2))
        last_timestep_lasts := scatter (s.grown hp).1.last_timestep_lasts
          ((active.zip time_indices).map fun bt =>
            (bt.1, if (s.grown hp).1.last_timestep bt.1 = bt.2 then
              (s.grown hp).1.last_timestep_lasts bt.1 + 1 else 1))
        last_timestep := scatter (s.grown hp).1.last_timestep (active.zip time_indices)
        lengths := scatter (s.grown hp).1.lengths
          (active.map fun b => (b, (s.grown hp).1.lengths b + 1)) } := by
  rw [Mem.HypsState.add_results, if_neg (by simpa using hne)]

theorem Mem.add_results_snd (s : Mem.HypsState) (hp : Mem.Heap) (active : List Nat)
    (labels time_indices : List Int) (scores : List ℚ) (hne : active ≠ []) :
    (s.add_results hp active labels time_indices scores).2 =
      (((active.map fun b => b * (s.grown hp).1.max_length + (s.grown hp).1.lengths b).zip
          time_indices).foldl
        (fun acc kv => acc.write (s.grown hp).1.timesteps_buf kv.1 kv.2)
        (((active.map fun b =>
            b * (s.grown hp).1.max_length + (s.grown hp).1.lengths b).zip labels).foldl
          (fun acc kv => acc.write (s.grown hp).1.transcript_buf kv.1 kv.2)
          (s.grown hp).2)) := by
  rw [Mem.HypsState.add_results, if_neg (by simpa using hne)]

/-- Heap unchanged by a write fold that never hits `(id0, off0)`. -/
theorem Mem.foldl_write_eq (hp : Mem.Heap) (bufId : Nat) (ups : List (Nat × Int))
    (id0 off0 : Nat) (h : bufId ≠ id0 ∨ ∀ k ∈ ups.map Prod.fst, k ≠ off0) :
    (ups.foldl (fun acc kv => acc.write bufId kv.1 kv.2) hp) id0 off0 = hp id0 off0 := by
  induction ups generalizing hp with
  | nil => rfl
  | cons kv rest ih =>
    rw [List.foldl_cons]
    have hrest : bufId ≠ id0 ∨ ∀ k ∈ rest.map Prod.fst, k ≠ off0 := by
      rcases h with h | h
      · exact Or.inl h
      · exact Or.inr fun k hk => h k (by rw [List.map_cons]; exact List.mem_cons_of_mem _ hk)
    rw [ih _ hrest]
    show (if id0 = bufId ∧ off0 = kv.1 then kv.2 else hp id0 off0) = hp id0 off0
    rcases h with h | h
    · rw [if_neg (fun hc => h hc.1.symm)]
    · rw [if_neg (fun hc => h kv.1 (by rw [List.map_cons]; exact List.mem_cons_self _ _)
        hc.2.symm)]

/-- Lengths only grow under `scatter` of the `+ 1` updates. -/
theorem scatter_lengths_le (len : Nat → Nat) (active : List Nat) (hnd : active.Nodup)
    (b : Nat) : len b ≤ scatter len (active.map fun b' => (b', len b' + 1)) b := by
  by_cases hmem : b ∈ active
  · rcases List.mem_iff_getElem.mp hmem with ⟨i, hi, hib⟩
    have hgd : active.getD i 0 = b := by rw [List.getD_eq_getElem _ 0 hi]; exact hib
    rw [← hgd]
    have hval : scatter len (active.map fun b' => (b', len b' + 1)) (active.getD i 0) =
        len (active.getD i 0) + 1 :=
      scatter_map_get len active id (fun b' => len b' + 1)
        (by rw [List.map_id]; exact hnd) i hi
    rw [hval]
    omega
  · have hval : scatter len (active.map fun b' => (b', len b' + 1)) b = len b :=
      scatter_map_eq_self len active id _ b (fun b' hb' heq => hmem (heq ▸ hb'))
    rw [hval]

theorem scatter_lengths_bound (len : Nat → Nat) (active : List Nat) (hnd : active.Nodup)
    (L : Nat) (b : Nat) (hb1 : len b ≤ L) (hb2 : b ∈ active → len b < L) :
    scatter len (active.map fun b' => (b', len b' + 1)) b ≤ L := by
  by_cases hmem : b ∈ active
  · rcases List.mem_iff_getElem.mp hmem with ⟨i, hi, hib⟩
    have hgd : active.getD i 0 = b := by rw [List.getD_eq_getElem _ 0 hi]; exact hib
    rw [← hgd]
    have hval : scatter len (active.map fun b' => (b', len b' + 1)) (active.getD i 0) =
        len (active.getD i 0) + 1 :=
      scatter_map_get len active id (fun b' => len b' + 1)
        (by rw [List.map_id]; exact hnd) i hi
    rw [hval, hgd]
    have := hb2 hmem
    omega
  · have hval : scatter len (active.map fun b' => (b', len b' + 1)) b = len b :=
      scatter_map_eq_self len active id _ b (fun b' hb' heq => hmem (heq ▸ hb'))
    rw [hval]
    exact hb1

/-- No flat scatter index of a call can hit a column strictly below
the written item's current length (decoding of row-major offsets). -/
theorem Mem.write_offsets_safe (active : List Nat) (payload : List Int) (L : Nat)
    (len : Nat → Nat) (hlt : ∀ b' ∈ active, len b' < L)
    (b j : Nat) (hj : j < L) (hjlen : ∀ b' ∈ active, b' = b → j < len b') :
    ∀ k ∈ ((active.map fun b' => b' * L + len b').zip payload).map Prod.fst,
      k ≠ b * L + j := by
  intro k hk heq
  rcases List.mem_map.mp hk with ⟨p, hp1, hpk⟩
  have hfm : p.1 ∈ active.map fun b' => b' * L + len b' := (List.of_mem_zip hp1).1
  rcases List.mem_map.mp hfm with ⟨b', hb'mem, hfb⟩
  have hkeq : b' * L + len b' = b * L + j := hfb.trans (hpk.trans heq)
  have hd1 := @flat_decode_div L b' (len b') (hlt b' hb'mem)
  have hd2 := @flat_decode_div L b j hj
  have hm1 := @flat_decode_mod L b' (len b') (hlt b' hb'mem)
  have hm2 := @flat_decode_mod L b j hj
  rw [hkeq] at hd1 hm1
  have hdb : b' = b := by omega
  have := hjlen b' hb'mem hdb
  omega

theorem Mem.step_preserves (s0 : Mem.HypsState) (hwf0 : s0.Wf) (s : Mem.HypsState)
    (hp : Mem.Heap) (hwf : s.Wf) (htr : Mem.Tracks s0 s) (c : HypsCall)
    (hv : c.Valid s.batch_size) :
    (s.add_results hp c.active_indices c.labels c.time_indices c.scores).1.Wf ∧
    Mem.Tracks s0 (s.add_results hp c.active_indices c.labels c.time_indices c.scores).1 ∧
    Mem.Preserved s0 hp
      (s.add_results hp c.active_indices c.labels c.time_indices c.scores).2 := by
  rcases eq_or_ne c.active_indices [] with he | hne
  · rw [he, Mem.add_results_state_nil]
    exact ⟨hwf, htr, fun b j _ _ => ⟨rfl, rfl⟩⟩
  rw [Mem.add_results_fst s hp _ _ _ _ hne, Mem.add_results_snd s hp _ _ _ _ hne]
  rcases Mem.grown_eq_cases s hp with ⟨hg, hcond⟩ | ⟨hg, hcond⟩
  · -- no reallocation in this call
    rw [hg]
    dsimp only
    have hltL : ∀ b' ∈ c.active_indices, s.lengths b' < s.max_length := fun b' hb' =>
      lt_of_le_of_lt (le_maxOver_of_lt s.lengths (hv.2.1 b' hb')) hcond
    refine ⟨⟨hwf.1, hwf.2.1, ?_, hwf.2.2.2.1, hwf.2.2.2.2.1, hwf.2.2.2.2.2⟩,
      ⟨htr.1, htr.2.1, ?_, ?_⟩, ?_⟩
    · intro b hb
      exact scatter_lengths_bound s.lengths c.active_indices hv.1 s.max_length b
        (hwf.2.2.1 b hb) (fun hmem => hltL b hmem)
    · intro b hb
      exact le_trans (htr.2.2.1 b hb)
        (scatter_lengths_le s.lengths c.active_indices hv.1 b)
    · exact htr.2.2.2
    · intro b j hb hj
      have hjlt : j < s.lengths b := lt_of_lt_of_le hj (htr.2.2.1 b hb)
      rcases htr.2.2.2 with ⟨hbt, hbts, hbm⟩ | ⟨hbt, hbts⟩
      · -- live buffers are still the materialization-time buffers
        have hj0 : j < s0.max_length :=
          lt_of_lt_of_le hj (le_trans (hwf0.2.2.1 b hb) (le_refl _))
        have hsafe : ∀ k ∈ ((c.active_indices.map fun b' =>
              b' * s.max_length + s.lengths b').zip c.labels).map Prod.fst,
            k ≠ b * s0.max_length + j := by
          rw [hbm]
          exact Mem.write_offsets_safe c.active_indices c.labels s0.max_length s.lengths
            (fun b' hb' => hbm ▸ hltL b' hb') b j hj0
            (fun b' hb' hb'b => by rw [hb'b]; exact hjlt)
        have hsafe2 : ∀ k ∈ ((c.active_indices.map fun b' =>
              b' * s.max_length + s.lengths b').zip c.time_indices).map Prod.fst,
            k ≠ b * s0.max_length + j := by
          rw [hbm]
          exact Mem.write_offsets_safe c.active_indices c.time_indices s0.max_length
            s.lengths (fun b' hb' => hbm ▸ hltL b' hb') b j hj0
            (fun b' hb' hb'b => by rw [hb'b]; exact hjlt)
        constructor
        · rw [Mem.foldl_write_eq _ _ _ _ _
              (Or.inl (by rw [hbts]; exact fun hc => hwf0.2.2.2.2.2 hc.symm)),
            Mem.foldl_write_eq _ _ _ _ _ (Or.inr hsafe)]
        · rw [Mem.foldl_write_eq _ _ _ _ _ (Or.inr hsafe2),
            Mem.foldl_write_eq _ _ _ _ _
              (Or.inl (by rw [hbt]; exact hwf0.2.2.2.2.2))]
      · -- live buffers were reallocated after materialization
        have hnt : s.transcript_buf ≠ s0.transcript_buf := by
          have := hwf0.2.2.2.1
          omega
        have hnts : s.timesteps_buf ≠ s0.transcript_buf := by
          have := hwf0.2.2.2.1
          omega
        have hnt2 : s.transcript_buf ≠ s0.timesteps_buf := by
          have := hwf0.2.2.2.2.1
          omega
        have hnts2 : s.timesteps_buf ≠ s0.timesteps_buf := by
          have := hwf0.2.2.2.2.1
          omega
        constructor
        · rw [Mem.foldl_write_eq _ _ _ _ _ (Or.inl hnts),
            Mem.foldl_write_eq _ _ _ _ _ (Or.inl hnt)]
        · rw [Mem.foldl_write_eq _ _ _ _ _ (Or.inl hnts2),
            Mem.foldl_write_eq _ _ _ _ _ (Or.inl hnt2)]
  · -- this call reallocates: fresh buffers, old storage untouched
    rw [hg]
    dsimp only [Mem.HypsState.allocate_more]
    have hmax : 0 < 2 * s.max_length := by have := hwf.2.1; omega
    refine ⟨⟨hwf.1, hmax, ?_, by show s.next_buf < s.next_buf + 2; omega,
        by show s.next_buf + 1 < s.next_buf + 2; omega,
        by show s.next_buf ≠ s.next_buf + 1; omega⟩,
      ⟨htr.1, by have h2 := htr.2.1; show s0.next_buf ≤ s.next_buf + 2; omega, ?_,
        Or.inr ⟨by have h2 := htr.2.1; show s0.next_buf ≤ s.next_buf; omega,
          by have h2 := htr.2.1; show s0.next_buf ≤ s.next_buf + 1; omega⟩⟩, ?_⟩
    · intro b hb
      exact scatter_lengths_bound s.lengths c.active_indices hv.1 (2 * s.max_length) b
        (le_trans (hwf.2.2.1 b hb) (by omega))
        (fun hmem => lt_of_le_of_lt (hwf.2.2.1 b (hv.2.1 b hmem)) (by omega))
    · intro b hb
      exact le_trans (htr.2.2.1 b hb)
        (scatter_lengths_le s.lengths c.active_indices hv.1 b)
    · intro b j hb hj
      have hid1 : s0.transcript_buf < s.next_buf :=
        lt_of_lt_of_le hwf0.2.2.2.1 htr.2.1
      have hid2 : s0.timesteps_buf < s.next_buf :=
        lt_of_lt_of_le hwf0.2.2.2.2.1 htr.2.1
      have hbase1 : ∀ o, (s.allocate_more hp).2 s0.transcript_buf o =
          hp s0.transcript_buf o := fun o => Mem.allocate_more_heap_lt s hp _ o hid1
      have hbase2 : ∀ o, (s.allocate_more hp).2 s0.timesteps_buf o =
          hp s0.timesteps_buf o := fun o => Mem.allocate_more_heap_lt s hp _ o hid2
      constructor
      · rw [Mem.foldl_write_eq _ _ _ _ _ (Or.inl (by omega)),
          Mem.foldl_write_eq _ _ _ _ _ (Or.inl (by omega))]
        exact hbase1 _
      · rw [Mem.foldl_write_eq _ _ _ _ _ (Or.inl (by omega)),
          Mem.foldl_write_eq _ _ _ _ _ (Or.inl (by omega))]
        exact hbase2 _

theorem Mem.Preserved.trans {s0 : Mem.HypsState} {hp1 hp2 hp3 : Mem.Heap}
    (h1 : Mem.Preserved s0 hp1 hp2) (h2 : Mem.Preserved s0 hp2 hp3) :
    Mem.Preserved s0 hp1 hp3 := fun b j hb hj =>
  ⟨(h2 b j hb hj).1.trans (h1 b j hb hj).1, (h2 b j hb hj).2.trans (h1 b j hb hj).2⟩

theorem Mem.run_cons_eq (s : Mem.HypsState) (hp : Mem.Heap) (c : HypsCall)
    (cs : List HypsCall) :
    Mem.run s hp (c :: cs) =
      Mem.run (s.add_results hp c.active_indices c.labels c.time_indices c.scores).1
        (s.add_results hp c.active_indices c.labels c.time_indices c.scores).2 cs := rfl

theorem Mem.run_preserves_aux (s0 : Mem.HypsState) (hwf0 : s0.Wf) :
    ∀ cs : List HypsCall, (∀ c ∈ cs, c.Valid s0.batch_size) →
    ∀ (s : Mem.HypsState) (hp : Mem.Heap), s.Wf → Mem.Tracks s0 s →
      (Mem.run s hp cs).1.Wf ∧ Mem.Tracks s0 (Mem.run s hp cs).1 ∧
        Mem.Preserved s0 hp (Mem.run s hp cs).2 := by
  intro cs
  induction cs with
  | nil =>
    intro _ s hp hwf htr
    exact ⟨hwf, htr, fun b j _ _ => ⟨rfl, rfl⟩⟩
  | cons c rest ih =>
    intro hcs s hp hwf htr
    rw [Mem.run_cons_eq]
    have hv : c.Valid s.batch_size := by
      rw [htr.1]
      exact hcs c (List.mem_cons_self c rest)
    have hstep := Mem.step_preserves s0 hwf0 s hp hwf htr c hv
    have hrec := ih (fun c' hc' => hcs c' (List.mem_cons_of_mem c hc'))
      (s.add_results hp c.active_indices c.labels c.time_indices c.scores).1
      (s.add_results hp c.active_indices c.labels c.time_indices c.scores).2
      hstep.1 hstep.2.1
    exact ⟨hrec.1, hrec.2.1, hstep.2.2.trans hrec.2.2⟩

theorem Mem.run_preserves (s0 : Mem.HypsState) (hp0 : Mem.Heap) (hwf0 : s0.Wf)
    (cs : List HypsCall) (hcs : ∀ c ∈ cs, c.Valid s0.batch_size) :
    (Mem.run s0 hp0 cs).1.Wf ∧ Mem.Tracks s0 (Mem.run s0 hp0 cs).1 ∧
      Mem.Preserved s0 hp0 (Mem.run s0 hp0 cs).2 :=
  Mem.run_preserves_aux s0 hwf0 cs hcs s0 hp0 hwf0 (Mem.Tracks.refl s0)

theorem Mem.readView_getD (hp : Mem.Heap) (v : Mem.TensorView) {j : Nat}
    (hj : j < v.len) :
    (Mem.readView hp v).getD j 0 = hp v.buf (v.base + j) := by
  rw [Mem.readView,
    List.getD_eq_getElem _ _ (by rw [List.length_map, List.length_range]; exact hj)]
  have hj2 : j < (List.range v.len).length := by rw [List.length_range]; exact hj
  have hj3 : j < ((List.range v.len).map fun j => hp v.buf (v.base + j)).length := by
    rw [List.length_map]; exact hj2
  show ((List.range v.len).map fun j => hp v.buf (v.base + j))[j] = _
  rw [List.getElem_map, List.getElem_range]

theorem Mem.readView_congr (hp hp2 : Mem.Heap) (v : Mem.TensorView)
    (h : ∀ j, j < v.len → hp2 v.buf (v.base + j) = hp v.buf (v.base + j)) :
    Mem.readView hp2 v = Mem.readView hp v := by
  rw [Mem.readView, Mem.readView]
  exact List.map_congr_left fun j hj => h j (List.mem_range.mp hj)

/-- C2 (amended): the materialized `score` is a copied value, but
`y_sequence` and `timestep` are views aliasing the accumulator's
storage: an in-place buffer write at row `b`, column
`j < lengths[b]` is reflected at position `j` of the already
materialized record `b` (first part).  Mutation through further
`add_results_` calls alone, however, never changes the readback of
previously materialized records, because those writes land either at
columns at or beyond the materialized lengths or in freshly allocated
storage (second part). -/
theorem C2_views_alias_storage :
    (∀ (s : Mem.HypsState) (hp : Mem.Heap) (b j : Nat) (v : Int),
      b < s.batch_size → j < s.lengths b →
      (Mem.readView (hp.write s.transcript_buf (b * s.max_length + j) v)
          ((Mem.hypsToHypotheses s).getD b Mem.defaultRef).y_sequence).getD j 0 = v ∧
      (Mem.readView (hp.write s.timesteps_buf (b * s.max_length + j) v)
          ((Mem.hypsToHypotheses s).getD b Mem.defaultRef).timestep).getD j 0 = v) ∧
    (∀ (s0 : Mem.HypsState) (hp0 : Mem.Heap), s0.Wf →
      ∀ cs : List HypsCall, (∀ c ∈ cs, c.Valid s0.batch_size) →
      ∀ b, b < s0.batch_size →
      Mem.readView (Mem.run s0 hp0 cs).2
          ((Mem.hypsToHypotheses s0).getD b Mem.defaultRef).y_sequence =
        Mem.readView hp0 ((Mem.hypsToHypotheses s0).getD b Mem.defaultRef).y_sequence ∧
      Mem.readView (Mem.run s0 hp0 cs).2
          ((Mem.hypsToHypotheses s0).getD b Mem.defaultRef).timestep =
        Mem.readView hp0 ((Mem.hypsToHypotheses s0).getD b Mem.defaultRef).timestep) := by
  constructor
  · intro s hp b j v hb hj
    rw [Mem.hypsToHypotheses_getD s hb]
    dsimp only
    constructor
    · rw [Mem.readView_getD _ _ hj]
      show (if s.transcript_buf = s.transcript_buf ∧
          b * s.max_length + j = b * s.max_length + j then v else _) = v
      rw [if_pos ⟨rfl, rfl⟩]
    · rw [Mem.readView_getD _ _ hj]
      show (if s.timesteps_buf = s.timesteps_buf ∧
          b * s.max_length + j = b * s.max_length + j then v else _) = v
      rw [if_pos ⟨rfl, rfl⟩]
  · intro s0 hp0 hwf0 cs hcs b hb
    have hrun := Mem.run_preserves s0 hp0 hwf0 cs hcs
    rw [Mem.hypsToHypotheses_getD s0 hb]
    dsimp only
    constructor
    · exact Mem.readView_congr hp0 _ _ fun j hj => (hrun.2.2 b j hb hj).1
    · exact Mem.readView_congr hp0 _ _ fun j hj => (hrun.2.2 b j hb hj).2

/-- Witness for C2: the aliasing read at the concrete one-append
state, and preservation of that record under a further call. -/
theorem C2_views_alias_storage_witness :
    (0 < memB.1.batch_size ∧ 0 < memB.1.lengths 0 ∧ memB.1.Wf ∧
      HypsCall.Valid memB.1.batch_size callB) ∧
    (Mem.readView (memB.2.write memB.1.transcript_buf (0 * memB.1.max_length + 0) 99)
        ((Mem.hypsToHypotheses memB.1).getD 0 Mem.defaultRef).y_sequence).getD 0 0 = 99 ∧
    Mem.readView (Mem.run memB.1 memB.2 [callB]).2
        ((Mem.hypsToHypotheses memB.1).getD 0 Mem.defaultRef).y_sequence =
      Mem.readView memB.2
        ((Mem.hypsToHypotheses memB.1).getD 0 Mem.defaultRef).y_sequence :=
  have hwf : memB.1.Wf := by unfold Mem.HypsState.Wf; decide
  have hv : HypsCall.Valid memB.1.batch_size callB := by unfold HypsCall.Valid; decide
  ⟨⟨by decide, by decide, hwf, hv⟩,
    (C2_views_alias_storage.1 memB.1 memB.2 0 0 99 (by decide) (by decide)).1,
    (C2_views_alias_storage.2 memB.1 memB.2 hwf [callB]
      (by intro c hc; rw [List.mem_singleton] at hc; rw [hc]; exact hv) 0 (by decide)).1⟩
